import Mathlib

/-!
Verification of the knowledge-ingestion core of the repository
(`src/main/services/KnowledgeMetadataStore.ts`, which concatenates the
metadata store, the metadata-store variant of `KnowledgeService`, and the
`incrementalUpdate` variant of `KnowledgeService`, plus the
`@main/utils/metadataStore` module).

The development shallowly embeds:
  * the `ProcessingScheduler` (admission counters `workload` /
    `processingItemCount`, the admission scan `getSubtasksUntilMaximumLoad`
    inside `processingQueueHandle`, and the completion protocol), and
  * the per-item ingestion logic (the incremental directory master task,
    the full-refresh directory path, the two `fileTask` variants, and the
    metadata-store operations, SQL modelled over lists).

External collaborators (`calculateFileHash`, `statSync`, `addFileLoader`,
`ragApplication.deleteLoader`) are oracles supplied by an `Env`; the
observable interactions with the backend and the store are recorded as an
event trace, so ordering / absence-of-call properties are statable.
-/

namespace CherryKS

/-- `MB` from `@shared/config/constant`: one mebibyte, in bytes. -/
def MB : Nat := 1024 * 1024

/-- `KnowledgeService.MAXIMUM_WORKLOAD = 80 * MB` (both service variants). -/
def MAXIMUM_WORKLOAD : Nat := 80 * MB

/-- `KnowledgeService.MAXIMUM_PROCESSING_ITEM_COUNT = 30` (both variants). -/
def MAXIMUM_PROCESSING_ITEM_COUNT : Nat := 30

/-- `LoaderReturn` from `@shared/config/types` (the fields used here). -/
structure LoaderReturn where
  entriesAdded : Nat
  uniqueId : String
  uniqueIds : List String
  loaderType : String
deriving DecidableEq

/-- `KnowledgeService.ERROR_LOADER_RETURN`. -/
def ERROR_LOADER_RETURN : LoaderReturn :=
  { entriesAdded := 0, uniqueId := "", uniqueIds := [""], loaderType := "" }

/-! ## ProcessingScheduler -/

/-- `LoaderTaskItemState`. -/
inductive LoaderTaskItemState where
  | PENDING
  | PROCESSING
  | DONE
deriving DecidableEq

export LoaderTaskItemState (PENDING PROCESSING DONE)

/-- `LoaderTaskItem`: for the scheduler only the state and the workload
estimate (`evaluateTaskWorkload.workload`) matter; the unit of work itself
is modelled separately. -/
structure LoaderTaskItem where
  state : LoaderTaskItemState
  workload : Nat
deriving DecidableEq

/-- Scheduler state: the registered task groups (the insertion-ordered
`knowledgeItemProcessingQueueMappingPromise` map, each group being the
insertion-ordered `loaderTasks` set) and the two admission counters. -/
structure SchedState where
  groups : List (List LoaderTaskItem)
  workload : Nat
  processingItemCount : Nat
deriving DecidableEq

/-- `KnowledgeService.maximumLoad()`:
`processingItemCount >= MAXIMUM_PROCESSING_ITEM_COUNT || workload >= MAXIMUM_WORKLOAD`. -/
def maximumLoad (workload processingItemCount : Nat) : Bool :=
  decide (MAXIMUM_PROCESSING_ITEM_COUNT ≤ processingItemCount) ||
    decide (MAXIMUM_WORKLOAD ≤ workload)

/-- Result of scanning one group's `loaderTasks` (the inner `for` loop of
`getSubtasksUntilMaximumLoad`): updated items, updated counters, and
whether the labelled `break that` fired. -/
structure GroupScanResult where
  items : List LoaderTaskItem
  workload : Nat
  processingItemCount : Nat
  stopped : Bool
deriving DecidableEq

/-- Inner loop of `getSubtasksUntilMaximumLoad` (lines 1521-1552): for each
item, first check `maximumLoad()` and break out of the whole scan if it
holds; skip items that are not `PENDING`; otherwise add the item's workload
estimate to `workload`, increment `processingItemCount`, and set the item
to `PROCESSING`. -/
def scanGroup : List LoaderTaskItem → Nat → Nat → GroupScanResult
  | [], w, c => ⟨[], w, c, false⟩
  | it :: rest, w, c =>
    if maximumLoad w c then ⟨it :: rest, w, c, true⟩
    else if it.state = PENDING then
      let r := scanGroup rest (w + it.workload) (c + 1)
      ⟨{ it with state := PROCESSING } :: r.items, r.workload, r.processingItemCount, r.stopped⟩
    else
      let r := scanGroup rest w c
      ⟨it :: r.items, r.workload, r.processingItemCount, r.stopped⟩

/-- Outer loop of `getSubtasksUntilMaximumLoad` (`that: for ... of
knowledgeItemProcessingQueueMappingPromise`): scan the groups in
registration order; a `break that` in one group stops the whole scan. -/
def scanGroups : List (List LoaderTaskItem) → Nat → Nat → SchedState
  | [], w, c => ⟨[], w, c⟩
  | g :: gs, w, c =>
    let r := scanGroup g w c
    if r.stopped then ⟨r.items :: gs, r.workload, r.processingItemCount⟩
    else
      let s := scanGroups gs r.workload r.processingItemCount
      ⟨r.items :: s.groups, s.workload, s.processingItemCount⟩

/-- `processingQueueHandle` (lines 1518-1563): run the admission scan on the
current state.  (The returned `queueTaskList` of closures is represented by
the items switched to `PROCESSING`.) -/
def processingQueueHandle (s : SchedState) : SchedState :=
  scanGroups s.groups s.workload s.processingItemCount

/-- `add` → `appendProcessingQueue` followed by `processingQueueHandle`
(lines 1596-1600): register a fresh group whose items are all `PENDING`
with the given workload estimates, then run the admission scan. -/
def submitTask (s : SchedState) (ws : List Nat) : SchedState :=
  processingQueueHandle
    ⟨s.groups ++ [ws.map (fun w => ⟨PENDING, w⟩)], s.workload, s.processingItemCount⟩

/-- Completion bookkeeping of one finished item (the `.then` at lines
1539-1548): remove item `j` of group `i` from its group, dropping the group
once empty (`task.loaderTasks.delete(item)` /
`knowledgeItemProcessingQueueMappingPromise.delete(task)`). -/
def removeGroupItem (groups : List (List LoaderTaskItem)) (i j : Nat) :
    List (List LoaderTaskItem) :=
  let g := groups.getD i []
  let g' := g.eraseIdx j
  if g'.isEmpty then groups.eraseIdx i else groups.set i g'

/-- Completion of one in-flight item: `workload -= item.workload`,
`processingItemCount -= 1`, remove the item (lines 1539-1546); the caller
then re-invokes `processingQueueHandle` (line 1547). -/
def completeRemove (s : SchedState) (i j wl : Nat) : SchedState :=
  ⟨removeGroupItem s.groups i j, s.workload - wl, s.processingItemCount - 1⟩

/-- Reachable scheduler states, for submissions whose individual workload
estimates are bounded by `W`:  start empty; `add` may register any group of
pending items and triggers a scan; any `PROCESSING` item may complete,
which decrements the counters, removes the item and re-triggers the scan. -/
inductive Reachable (W : Nat) : SchedState → Prop
  | init : Reachable W ⟨[], 0, 0⟩
  | submit (s : SchedState) (ws : List Nat) (hb : ∀ x ∈ ws, x ≤ W)
      (h : Reachable W s) : Reachable W (submitTask s ws)
  | complete (s : SchedState) (i j : Nat) (g : List LoaderTaskItem)
      (it : LoaderTaskItem) (hg : s.groups.get? i = some g)
      (hit : g.get? j = some it) (hst : it.state = PROCESSING)
      (h : Reachable W s) :
      Reachable W (processingQueueHandle (completeRemove s i j it.workload))

/-! ## Metadata stores

`@main/utils/metadataStore` (the `file_metadata` table used by the
`incrementalUpdate` variant) and `KnowledgeMetadataStore`
(the `document_metadata` table used by the metadata-store variant).
SQL tables are modelled as lists of rows in insertion order; `file_path`
is the primary key, so the modelled stores are expected to hold at most
one row per path (the SQL `UNIQUE` constraints). -/

/-- `FileMetadata` of `@main/utils/metadataStore`. -/
structure FileMetadata where
  filePath : String
  lastModified : Nat
  size : Nat
  hash : String
  embedjs_unique_id : String
deriving DecidableEq

/-- `DocumentMetadata` of `KnowledgeMetadataStore` (the fields written by
the service; `id`, `created_at`, `updated_at` are database-managed). -/
structure DocumentMetadata where
  knowledge_base_id : String
  file_path : String
  content_hash : String
  unique_id_embedjs : String
  loader_type : String
  last_modified_timestamp : Nat
deriving DecidableEq

/-- ASCII lower-casing, as used by SQLite's default `LIKE` semantics
(`LIKE` is case-insensitive for ASCII characters). -/
def asciiLower (c : Char) : Char :=
  if 'A' ≤ c ∧ c ≤ 'Z' then Char.ofNat (c.toNat + 32) else c

/-- SQLite `LIKE` pattern matching over character lists: `%` matches any
sequence (realised by matching the remaining pattern against every suffix
of the subject), an underscore matches any single character, any other
pattern character matches ASCII-case-insensitively. -/
def likeMatchL : List Char → List Char → Bool
  | [], s => s.isEmpty
  | p :: ps, s =>
    if p = '%' then
      s.tails.any (fun t => likeMatchL ps t)
    else if p = '_' then
      (match s with
       | [] => false
       | _ :: s' => likeMatchL ps s')
    else
      (match s with
       | [] => false
       | d :: s' => (asciiLower p = asciiLower d) && likeMatchL ps s')

/-- `column LIKE pattern` on strings. -/
def likeMatch (pattern s : String) : Bool :=
  likeMatchL pattern.toList s.toList

/-- `String.endsWith`, computed on the character lists (used to model
`directoryPath.endsWith('/')`). -/
def strEndsWith (s suffix : String) : Bool :=
  suffix.toList.isSuffixOf s.toList

/-- The normalized directory prefix of `getDirectoryMetadata` /
`deleteDirectoryMetadata`: `directoryPath` suffixed with `/` unless it
already ends with it. -/
def normalizeDirPath (directoryPath : String) : String :=
  if strEndsWith directoryPath "/" then directoryPath else directoryPath ++ "/"

/-- `getDirectoryMetadata(db, directoryPath)` (`@main/utils/metadataStore`):
`SELECT * FROM file_metadata WHERE filePath LIKE ?` with pattern
`normalized-prefix + '%'`. -/
def getDirectoryMetadata (store : List FileMetadata) (directoryPath : String) :
    List FileMetadata :=
  store.filter (fun r => likeMatch (normalizeDirPath directoryPath ++ "%") r.filePath)

/-- `deleteDirectoryMetadata(db, directoryPath)`:
`DELETE FROM file_metadata WHERE filePath LIKE ?`, same pattern. -/
def deleteDirectoryMetadata (store : List FileMetadata) (directoryPath : String) :
    List FileMetadata :=
  store.filter (fun r => !likeMatch (normalizeDirPath directoryPath ++ "%") r.filePath)

/-- `insertFileMetadata(db, metadata)`: a plain SQL `INSERT` (callers only
insert paths that have no row, either new files or rows just cleared by
`deleteDirectoryMetadata`). -/
def insertFileMetadata (store : List FileMetadata) (m : FileMetadata) :
    List FileMetadata :=
  store ++ [m]

/-- `updateFileMetadata(db, filePath, {hash, lastModified, size,
embedjs_unique_id})`: `UPDATE file_metadata SET ... WHERE filePath = ?`,
updating exactly the four fields the service passes. -/
def updateFileMetadata (store : List FileMetadata) (filePath : String)
    (hash : String) (lastModified size : Nat) (uid : String) :
    List FileMetadata :=
  store.map (fun r =>
    if r.filePath = filePath then
      { r with hash := hash, lastModified := lastModified, size := size,
               embedjs_unique_id := uid }
    else r)

/-- `deleteFileMetadata(db, filePath)`:
`DELETE FROM file_metadata WHERE filePath = ?`. -/
def deleteFileMetadata (store : List FileMetadata) (filePath : String) :
    List FileMetadata :=
  store.filter (fun r => r.filePath ≠ filePath)

/-- `getMetadataByPath(knowledge_base_id, file_path)`
(`KnowledgeMetadataStore`): first row with matching key. -/
def getMetadataByPath (baseId : String) (store : List DocumentMetadata)
    (filePath : String) : Option DocumentMetadata :=
  store.find? (fun r => r.knowledge_base_id = baseId ∧ r.file_path = filePath)

/-- `addOrUpdateMetadata(metadata)` (`KnowledgeMetadataStore`): SQL upsert
on `(knowledge_base_id, file_path)` replacing the value columns. -/
def addOrUpdateMetadata (store : List DocumentMetadata) (m : DocumentMetadata) :
    List DocumentMetadata :=
  if store.any (fun r =>
      r.knowledge_base_id = m.knowledge_base_id ∧ r.file_path = m.file_path) then
    store.map (fun r =>
      if r.knowledge_base_id = m.knowledge_base_id ∧ r.file_path = m.file_path then
        { r with content_hash := m.content_hash,
                 unique_id_embedjs := m.unique_id_embedjs,
                 loader_type := m.loader_type,
                 last_modified_timestamp := m.last_modified_timestamp }
      else r)
  else store ++ [m]

/-- `deleteMetadataByEmbedjsUniqueId(knowledge_base_id, embedjs_unique_id)`. -/
def deleteMetadataByEmbedjsUniqueId (baseId : String)
    (store : List DocumentMetadata) (uid : String) : List DocumentMetadata :=
  store.filter (fun r => ¬(r.knowledge_base_id = baseId ∧ r.unique_id_embedjs = uid))

/-! ## Ingestion pipeline -/

/-- Observable interactions of a task with the embedding backend and the
metadata stores, in the order they are awaited. -/
inductive Event where
  | addLoader (filePath : String) (forceReload : Bool)
  | deleteLoader (uniqueId : String)
  | insertMeta (m : FileMetadata)
  | updateMeta (filePath : String) (hash : String) (lastModified size : Nat)
      (uniqueId : String)
  | deleteMeta (filePath : String)
  | deleteDirMeta (directoryPath : String)
  | upsertMeta (m : DocumentMetadata)
  | deleteMetaByUid (uniqueId : String)
deriving DecidableEq

/-- The fields of `FileType` the ingestion code reads. -/
structure FileInput where
  path : String
  size : Nat
  lastModified : Nat
deriving DecidableEq

/-- Oracles for the external collaborators.  `hashOf` models
`calculateFileHash` and may fail (`fs` stream error), in which case the
awaiting task observes a rejection; `mtimeOf` models
`statSync(path).mtimeMs`; `addLoader` models `addFileLoader`'s resolved
`LoaderReturn` for a path and `forceReload` flag. -/
structure Env where
  hashOf : String → Except String String
  mtimeOf : String → Nat
  addLoader : String → Bool → LoaderReturn

/-- Outcome of one task item's promise: `resolved` carries the trace, the
final `file_metadata` store and the value the task's group reports;
`rejected` means the async function threw and the promise rejected. -/
inductive TaskOutcome where
  | resolved (events : List Event) (store : List FileMetadata) (ret : LoaderReturn)
  | rejected (events : List Event) (store : List FileMetadata) (err : String)
deriving DecidableEq

/-- Accumulator of the incremental master task's `for (const file of files)`
loop (lines 1276-1305): the live store, the trace so far,
`processedFilePaths`, `currentEntriesAdded` and `currentUniqueIds`. -/
structure IncAcc where
  store : List FileMetadata
  events : List Event
  processedFilePaths : List String
  entriesAdded : Nat
  uniqueIds : List String
deriving DecidableEq

/-- The per-file loop of the incremental master task (lines 1276-1305),
with `emap` the `existingMetadataMap` built once at task start:

* existing record and (`hash` differs or `lastModified` differs) →
  `deleteLoader(old uid)`, `addFileLoader(..., true)`,
  `updateFileMetadata` with the new hash/mtime/size/uid;
* existing record, both match → only `currentUniqueIds.push(existingFileMeta.filePath)`;
* no record → `addFileLoader(..., false)`, `insertFileMetadata`.

A hash failure rejects the whole task (no `try`/`catch` around this loop),
returning the side effects performed so far. -/
def processFiles (env : Env) (emap : String → Option FileMetadata) :
    List FileInput → IncAcc → Except (String × IncAcc) IncAcc
  | [], acc => .ok acc
  | f :: rest, acc =>
    let acc0 := { acc with processedFilePaths := acc.processedFilePaths ++ [f.path] }
    match env.hashOf f.path with
    | .error e => .error (e, acc0)
    | .ok currentHash =>
      let lastModified := env.mtimeOf f.path
      match emap f.path with
      | some m =>
        if m.hash ≠ currentHash ∨ m.lastModified ≠ lastModified then
          let result := env.addLoader f.path true
          processFiles env emap rest
            { acc0 with
              events := acc0.events ++
                [.deleteLoader m.embedjs_unique_id, .addLoader f.path true,
                 .updateMeta f.path currentHash lastModified f.size result.uniqueId],
              store := updateFileMetadata acc0.store f.path currentHash lastModified
                f.size result.uniqueId,
              entriesAdded := acc0.entriesAdded + 1,
              uniqueIds := acc0.uniqueIds ++ [result.uniqueId] }
        else
          processFiles env emap rest
            { acc0 with uniqueIds := acc0.uniqueIds ++ [m.filePath] }
      | none =>
        let result := env.addLoader f.path false
        let md : FileMetadata :=
          ⟨f.path, lastModified, f.size, currentHash, result.uniqueId⟩
        processFiles env emap rest
          { acc0 with
            events := acc0.events ++ [.addLoader f.path false, .insertMeta md],
            store := insertFileMetadata acc0.store md,
            entriesAdded := acc0.entriesAdded + 1,
            uniqueIds := acc0.uniqueIds ++ [result.uniqueId] }

/-- The deleted-files loop of the incremental master task (lines
1307-1313): for each record of the initial `existingMetadataList` whose
path is not among `processedFilePaths`, `deleteLoader(uid)` then
`deleteFileMetadata(path)`. -/
def deletionScan (processed : List String) :
    List FileMetadata → List Event → List FileMetadata →
    List Event × List FileMetadata
  | [], events, store => (events, store)
  | m :: rest, events, store =>
    if m.filePath ∈ processed then deletionScan processed rest events store
    else
      deletionScan processed rest
        (events ++ [.deleteLoader m.embedjs_unique_id, .deleteMeta m.filePath])
        (deleteFileMetadata store m.filePath)

/-- The incremental master task (lines 1266-1328): one scheduler item whose
async body loads `getDirectoryMetadata`, classifies every current file,
removes records of vanished files, and finally stores
`currentEntriesAdded` / `currentUniqueIds` into the group's
`loaderDoneReturn` (`uniqueId` is `DirectoryLoader_<uuid>`, abstracted to a
constant; the group resolves with `loaderType: 'DirectoryLoader'`).
The body has no failure boundary, so a hash error rejects the promise. -/
def incrementalMasterTask (env : Env) (store0 : List FileMetadata)
    (directoryPath : String) (files : List FileInput) : TaskOutcome :=
  let existingList := getDirectoryMetadata store0 directoryPath
  let emap := fun p => existingList.find? (fun m => m.filePath = p)
  match processFiles env emap files ⟨store0, [], [], 0, []⟩ with
  | .error (e, acc) => .rejected acc.events acc.store e
  | .ok acc =>
    let r := deletionScan acc.processedFilePaths existingList acc.events acc.store
    .resolved r.1 r.2
      ⟨acc.entriesAdded, "DirectoryLoader_", acc.uniqueIds, "DirectoryLoader"⟩

/-- Accumulator of the full-refresh path (clear-then-readd). -/
structure FRAcc where
  store : List FileMetadata
  events : List Event
  entriesAdded : Nat
  uniqueIds : List String
deriving DecidableEq

/-- One full-refresh per-file task (lines 1361-1384):
`addFileLoader(..., true)` then hash / mtime / `insertFileMetadata`; the
whole chain has a `.catch` that swallows errors into
`ERROR_LOADER_RETURN`, leaving the aggregates untouched. -/
def fullRefreshFile (env : Env) (acc : FRAcc) (f : FileInput) : FRAcc :=
  let result := env.addLoader f.path true
  let ev0 := acc.events ++ [.addLoader f.path true]
  match env.hashOf f.path with
  | .error _ => { acc with events := ev0 }
  | .ok h =>
    let lastModified := env.mtimeOf f.path
    let md : FileMetadata := ⟨f.path, lastModified, f.size, h, result.uniqueId⟩
    { store := insertFileMetadata acc.store md,
      events := ev0 ++ [.insertMeta md],
      entriesAdded := acc.entriesAdded + 1,
      uniqueIds := acc.uniqueIds ++ [result.uniqueId] }

/-- The full-refresh path of `directoryTask` (taken when
`!incrementalUpdate || forceReload`, lines 1341-1385): a metadata-clearing
pre-task running `deleteDirectoryMetadata` (the code comments at lines
1347-1352 note that existing loaders are *not* deleted from the backend),
followed by one task per file.  The scheduler may interleave these items;
they are composed here in registration order, which fixes the store/trace
interleaving but not the set of calls performed. -/
def fullRefreshRun (env : Env) (store0 : List FileMetadata)
    (directoryPath : String) (files : List FileInput) : TaskOutcome :=
  let acc := files.foldl (fullRefreshFile env)
    ⟨deleteDirectoryMetadata store0 directoryPath, [.deleteDirMeta directoryPath], 0, []⟩
  .resolved acc.events acc.store
    ⟨acc.entriesAdded, "DirectoryLoader_", acc.uniqueIds, "DirectoryLoader"⟩

/-- `directoryTask` of the `incrementalUpdate` variant (lines 1028-1391):
the incremental master task when `incrementalUpdate && !forceReload`,
otherwise the full-refresh path. -/
def directoryTask (env : Env) (store0 : List FileMetadata)
    (directoryPath : String) (files : List FileInput)
    (forceReload incrementalUpdate : Bool) : TaskOutcome :=
  if incrementalUpdate && !forceReload then
    incrementalMasterTask env store0 directoryPath files
  else
    fullRefreshRun env store0 directoryPath files

/-- `fileTask` of the `incrementalUpdate` variant (lines 998-1026): the
unit of work is exactly `addFileLoader(ragApplication, file, base,
forceReload)` with a `.catch`; it never consults the metadata store, and
the `incrementalUpdate` flag (passed in `options` by `add`, lines
1575-1582) is not read.  Returns the trace and the resolved value. -/
def fileTask (env : Env) (file : FileInput)
    (forceReload incrementalUpdate : Bool) : List Event × LoaderReturn :=
  ([.addLoader file.path forceReload], env.addLoader file.path forceReload)

/-- `addFileLoader` result validity check of the metadata-store variant
(lines 380, 499): `result.uniqueId` truthy and `loaderType` nonempty. -/
def validLoaderResult (r : LoaderReturn) : Bool :=
  r.uniqueId ≠ "" && r.loaderType ≠ ""

/-- `fileTask` of the metadata-store variant (lines 340-408): hash the
file, look up `getMetadataByPath`;

* record exists, `!forceReload`, hash matches → skip: no backend calls,
  no store writes, resolve `SkippedUnchanged`;
* record exists, `forceReload || hash differs` → `deleteLoader(old uid)`,
  `deleteMetadataByEmbedjsUniqueId`, then `addFileLoader(...,
  forceReload)` and `addOrUpdateMetadata` with the new hash (invalid
  results skip the metadata write and resolve the error sentinel);
* no record → `addFileLoader` + `addOrUpdateMetadata`.

The whole body is wrapped in `try`/`catch` resolving
`ERROR_LOADER_RETURN`, here triggered by a hash failure. -/
def fileTaskMetadataStoreVariant (env : Env) (baseId : String)
    (store : List DocumentMetadata) (file : FileInput) (forceReload : Bool) :
    List Event × List DocumentMetadata × LoaderReturn :=
  match env.hashOf file.path with
  | .error _ => ([], store, ERROR_LOADER_RETURN)
  | .ok fileHash =>
    match getMetadataByPath baseId store file.path with
    | some m =>
      if ¬forceReload ∧ m.content_hash = fileHash then
        ([], store,
          ⟨0, m.unique_id_embedjs, [m.unique_id_embedjs], "SkippedUnchanged"⟩)
      else
        let ev1 := [Event.deleteLoader m.unique_id_embedjs,
                    Event.deleteMetaByUid m.unique_id_embedjs]
        let store1 := deleteMetadataByEmbedjsUniqueId baseId store m.unique_id_embedjs
        let result := env.addLoader file.path forceReload
        let ev2 := ev1 ++ [Event.addLoader file.path forceReload]
        if validLoaderResult result then
          let md : DocumentMetadata :=
            ⟨baseId, file.path, fileHash, result.uniqueId, result.loaderType,
             file.lastModified⟩
          (ev2 ++ [.upsertMeta md], addOrUpdateMetadata store1 md, result)
        else (ev2, store1, ERROR_LOADER_RETURN)
    | none =>
      let result := env.addLoader file.path forceReload
      if validLoaderResult result then
        let md : DocumentMetadata :=
          ⟨baseId, file.path, fileHash, result.uniqueId, result.loaderType,
           file.lastModified⟩
        ([.addLoader file.path forceReload, .upsertMeta md],
          addOrUpdateMetadata store md, result)
      else ([.addLoader file.path forceReload], store, ERROR_LOADER_RETURN)

/-- Case-insensitive (ASCII) literal string prefix test, the wildcard-free
meaning of the `LIKE` queries. -/
def ciStartsWith (p s : String) : Bool :=
  (p.toList.map asciiLower).isPrefixOf (s.toList.map asciiLower)

/-- Literal (case-sensitive, wildcard-free) string prefix test: what the
spec means by "begins with the directory path suffixed by the path
separator". -/
def literalStartsWith (p s : String) : Bool :=
  p.toList.isPrefixOf s.toList

/-- Trace of a task outcome. -/
def TaskOutcome.events : TaskOutcome → List Event
  | .resolved e _ _ => e
  | .rejected e _ _ => e

/-- Final `file_metadata` store of a task outcome. -/
def TaskOutcome.store : TaskOutcome → List FileMetadata
  | .resolved _ st _ => st
  | .rejected _ st _ => st

/-- Whether a task's promise rejected (threw) rather than resolved. -/
def TaskOutcome.isRejected : TaskOutcome → Bool
  | .rejected _ _ _ => true
  | .resolved _ _ _ => false

/-- Whether an event is a backend `deleteLoader` call. -/
def isDeleteLoader : Event → Bool
  | .deleteLoader _ => true
  | _ => false

/-- Events that concern the file at `p` whose record carries backend handle
`uid`: an `addFileLoader` call on the path or a `deleteLoader` call on the
handle. -/
def TouchesFile (e : Event) (p uid : String) : Prop :=
  (∃ b, e = Event.addLoader p b) ∨ e = Event.deleteLoader uid

/-- All workload estimates of all registered items are bounded by `W`. -/
def ItemsBounded (W : Nat) (groups : List (List LoaderTaskItem)) : Prop :=
  ∀ g ∈ groups, ∀ it ∈ g, it.workload ≤ W

/-! ## Concrete instances used by counterexamples and witnesses -/

/-- Scheduler state after submitting two 79 MB items to an idle scheduler. -/
def cexC1State : SchedState := submitTask ⟨[], 0, 0⟩ [79 * MB, 79 * MB]

/-- Scheduler state after submitting a single 100 MB item to an idle
scheduler. -/
def cexC2State : SchedState := submitTask ⟨[], 0, 0⟩ [100 * MB]

/-- Environment in which `/d/a.txt` hashes to `"h1"` with mtime 5 (matching
`recStable`), and the backend returns `uid-2` for any add. -/
def envStable : Env :=
  { hashOf := fun _ => .ok "h1", mtimeOf := fun _ => 5,
    addLoader := fun _ _ => ⟨1, "uid-2", ["uid-2"], "File"⟩ }

/-- A stored record for `/d/a.txt` matching `envStable`'s hash and mtime. -/
def recStable : FileMetadata := ⟨"/d/a.txt", 5, 10, "h1", "uid-1"⟩

/-- Environment in which `/d/a.txt` now hashes to `"h2"` with mtime 6
(differing from `recOld`), and the backend returns `uid-new`. -/
def envEdit : Env :=
  { hashOf := fun _ => .ok "h2", mtimeOf := fun _ => 6,
    addLoader := fun _ _ => ⟨1, "uid-new", ["uid-new"], "File"⟩ }

/-- The superseded record for `/d/a.txt` (old hash `h1`, handle
`uid-old`). -/
def recOld : FileMetadata := ⟨"/d/a.txt", 5, 10, "h1", "uid-old"⟩

/-- A record under `/d` whose file no longer exists on disk. -/
def recGone : FileMetadata := ⟨"/d/gone.txt", 5, 10, "h1", "uid-gone"⟩

/-- Environment for the `/docs` scenario: `/docs/r.md` hashes to `"hNew"`
with mtime 9, backend returns `uid-8`. -/
def envDoc : Env :=
  { hashOf := fun _ => .ok "hNew", mtimeOf := fun _ => 9,
    addLoader := fun _ _ => ⟨1, "uid-8", ["uid-8"], "File"⟩ }

/-- The superseded record for `/docs/r.md` (hash `hOld`, handle `uid-7`). -/
def recDoc : FileMetadata := ⟨"/docs/r.md", 5, 10, "hOld", "uid-7"⟩

/-- Environment in which hashing always fails (unreadable file), as in an
`fs` stream error inside `calculateFileHash`. -/
def envHashFail : Env :=
  { hashOf := fun _ => .error "EACCES: permission denied", mtimeOf := fun _ => 0,
    addLoader := fun _ _ => ⟨0, "u", ["u"], "t"⟩ }

/-- A record whose path `/axb/f.txt` does *not* lie under the directory
`/a_b`, yet matches the `LIKE` pattern `/a_b/%` because an underscore is a
single-character wildcard. -/
def recSneaky : FileMetadata := ⟨"/axb/f.txt", 1, 2, "h", "u"⟩

/-- A record under `/a/b`. -/
def recAB : FileMetadata := ⟨"/a/b/f.txt", 1, 2, "h1", "u1"⟩

/-- A record under the sibling directory `/a/bc`. -/
def recABC : FileMetadata := ⟨"/a/bc/g.txt", 1, 2, "h2", "u2"⟩

/-- A `DocumentMetadata` record for the metadata-store variant scenarios. -/
def recDoc2 : DocumentMetadata := ⟨"kb1", "/d/a.txt", "h1", "uid-1", "File", 5⟩

/-! ## Scheduler lemmas -/

theorem maximumLoad_eq_false_iff {w c : Nat} :
    maximumLoad w c = false ↔
      c < MAXIMUM_PROCESSING_ITEM_COUNT ∧ w < MAXIMUM_WORKLOAD := by
  simp [maximumLoad, Nat.not_le]

theorem scanGroup_count_le (items : List LoaderTaskItem) (w c : Nat)
    (hc : c ≤ MAXIMUM_PROCESSING_ITEM_COUNT) :
    (scanGroup items w c).processingItemCount ≤ MAXIMUM_PROCESSING_ITEM_COUNT := by
  induction items generalizing w c with
  | nil => simpa [scanGroup] using hc
  | cons it rest ih =>
    by_cases hml : maximumLoad w c = true
    · simpa [scanGroup, hml] using hc
    · have hlt := maximumLoad_eq_false_iff.mp (by simpa using hml)
      by_cases hst : it.state = PENDING
      · simpa [scanGroup, hml, hst] using ih (w + it.workload) (c + 1) (by omega)
      · simpa [scanGroup, hml, hst] using ih w c hc

theorem scanGroup_workload_lt (W : Nat) (items : List LoaderTaskItem) (w c : Nat)
    (hb : ∀ it ∈ items, it.workload ≤ W) (hw : w < MAXIMUM_WORKLOAD + W) :
    (scanGroup items w c).workload < MAXIMUM_WORKLOAD + W := by
  induction items generalizing w c with
  | nil => simpa [scanGroup] using hw
  | cons it rest ih =>
    have hbit : it.workload ≤ W := hb it (List.mem_cons_self _ _)
    have hbrest : ∀ x ∈ rest, x.workload ≤ W :=
      fun x hx => hb x (List.mem_cons_of_mem _ hx)
    by_cases hml : maximumLoad w c = true
    · simpa [scanGroup, hml] using hw
    · have hlt := maximumLoad_eq_false_iff.mp (by simpa using hml)
      by_cases hst : it.state = PENDING
      · simpa [scanGroup, hml, hst] using
          ih (w + it.workload) (c + 1) hbrest (by omega)
      · simpa [scanGroup, hml, hst] using ih w c hbrest hw

theorem scanGroup_items_bounded (W : Nat) (items : List LoaderTaskItem) (w c : Nat)
    (hb : ∀ it ∈ items, it.workload ≤ W) :
    ∀ it ∈ (scanGroup items w c).items, it.workload ≤ W := by
  induction items generalizing w c with
  | nil => simp [scanGroup]
  | cons it rest ih =>
    have hbit : it.workload ≤ W := hb it (List.mem_cons_self _ _)
    have hbrest : ∀ x ∈ rest, x.workload ≤ W :=
      fun x hx => hb x (List.mem_cons_of_mem _ hx)
    by_cases hml : maximumLoad w c = true
    · simpa [scanGroup, hml] using hb
    · by_cases hst : it.state = PENDING
      · intro x hx
        simp only [scanGroup, hml, hst] at hx
        simp only [Bool.false_eq_true, if_false, if_true] at hx
        rcases List.mem_cons.mp hx with h | h
        · subst h; exact hbit
        · exact ih (w + it.workload) (c + 1) hbrest x h
      · intro x hx
        simp only [scanGroup, hml, hst] at hx
        simp only [Bool.false_eq_true, if_false] at hx
        rcases List.mem_cons.mp hx with h | h
        · subst h; exact hbit
        · exact ih w c hbrest x h

theorem scanGroups_inv (W : Nat) (gs : List (List LoaderTaskItem)) (w c : Nat)
    (hb : ItemsBounded W gs) (hc : c ≤ MAXIMUM_PROCESSING_ITEM_COUNT)
    (hw : w < MAXIMUM_WORKLOAD + W) :
    ItemsBounded W (scanGroups gs w c).groups ∧
      (scanGroups gs w c).processingItemCount ≤ MAXIMUM_PROCESSING_ITEM_COUNT ∧
      (scanGroups gs w c).workload < MAXIMUM_WORKLOAD + W := by
  induction gs generalizing w c with
  | nil =>
    refine ⟨?_, by simpa [scanGroups] using hc, by simpa [scanGroups] using hw⟩
    intro g hg
    simp [scanGroups] at hg
  | cons g rest ih =>
    have hbg : ∀ it ∈ g, it.workload ≤ W := hb g (List.mem_cons_self _ _)
    have hbrest : ItemsBounded W rest := fun g' hg' => hb g' (List.mem_cons_of_mem _ hg')
    have h1 := scanGroup_count_le g w c hc
    have h2 := scanGroup_workload_lt W g w c hbg hw
    have h3 := scanGroup_items_bounded W g w c hbg
    by_cases hs : (scanGroup g w c).stopped = true
    · refine ⟨?_, by simpa [scanGroups, hs] using h1, by simpa [scanGroups, hs] using h2⟩
      intro g' hg'
      simp only [scanGroups, hs, if_true] at hg'
      rcases List.mem_cons.mp hg' with h | h
      · subst h; exact h3
      · exact hbrest g' h
    · obtain ⟨ih1, ih2, ih3⟩ :=
        ih (scanGroup g w c).workload (scanGroup g w c).processingItemCount hbrest h1 h2
      refine ⟨?_, by simpa [scanGroups, hs] using ih2, by simpa [scanGroups, hs] using ih3⟩
      intro g' hg'
      simp only [scanGroups, hs, Bool.false_eq_true, if_false] at hg'
      rcases List.mem_cons.mp hg' with h | h
      · subst h; exact h3
      · exact ih1 g' h

theorem ItemsBounded_removeGroupItem (W : Nat) (groups : List (List LoaderTaskItem))
    (i j : Nat) (hb : ItemsBounded W groups) :
    ItemsBounded W (removeGroupItem groups i j) := by
  intro g' hg'
  unfold removeGroupItem at hg'
  by_cases he : ((groups.getD i []).eraseIdx j).isEmpty = true
  · simp only [he, if_true] at hg'
    exact hb g' ((List.eraseIdx_sublist groups i).subset hg')
  · simp only [he, Bool.false_eq_true, if_false] at hg'
    rcases List.mem_or_eq_of_mem_set hg' with h | h
    · exact hb g' h
    · subst h
      intro it hit
      have hit' : it ∈ groups.getD i [] := (List.eraseIdx_sublist _ j).subset hit
      by_cases hi : i < groups.length
      · have : groups.getD i [] ∈ groups := by
          rw [List.getD_eq_getElem groups [] hi]
          exact List.getElem_mem hi
        exact hb _ this it hit'
      · rw [List.getD_eq_default groups [] (Nat.le_of_not_lt hi)] at hit'
        simp at hit'

theorem reachable_inv {W : Nat} {s : SchedState} (h : Reachable W s) :
    ItemsBounded W s.groups ∧
      s.processingItemCount ≤ MAXIMUM_PROCESSING_ITEM_COUNT ∧
      s.workload < MAXIMUM_WORKLOAD + W := by
  induction h with
  | init =>
    refine ⟨?_, by simp, ?_⟩
    · intro g hg; simp at hg
    · show (0 : Nat) < MAXIMUM_WORKLOAD + W
      have : 0 < MAXIMUM_WORKLOAD := by decide
      omega
  | submit s ws hbw h ih =>
    obtain ⟨ih1, ih2, ih3⟩ := ih
    have hb' : ItemsBounded W (s.groups ++ [ws.map (fun w => ⟨PENDING, w⟩)]) := by
      intro g hg
      rcases List.mem_append.mp hg with hg | hg
      · exact ih1 g hg
      · simp only [List.mem_singleton] at hg
        subst hg
        intro it hit
        simp only [List.mem_map] at hit
        obtain ⟨x, hx, hxe⟩ := hit
        subst hxe
        exact hbw x hx
    exact scanGroups_inv W _ _ _ hb' ih2 ih3
  | complete s i j g it hg hit hst h ih =>
    obtain ⟨ih1, ih2, ih3⟩ := ih
    have hb' := ItemsBounded_removeGroupItem W s.groups i j ih1
    have hc' : s.processingItemCount - 1 ≤ MAXIMUM_PROCESSING_ITEM_COUNT := by omega
    have hw' : s.workload - it.workload < MAXIMUM_WORKLOAD + W :=
      Nat.lt_of_le_of_lt (Nat.sub_le _ _) ih3
    exact scanGroups_inv W _ _ _ hb' hc' hw'

/-! ## Claims C1 and C2 -/

/-- C1, counterexample.  The admission scan checks `maximumLoad()` *before*
each admission, i.e. it only requires the counters to be strictly below the
caps before an item is started, not after.  Submitting two 79 MB items
(each individually under the 80 MB cap) to an idle scheduler admits both in
one scan, leaving the reachable state with `workload = 158 MB`, which
violates `workload ≤ MAXIMUM_WORKLOAD`. -/
theorem C1_counterexample :
    Reachable (79 * MB) cexC1State ∧
      cexC1State.workload = 158 * MB ∧
      ¬ cexC1State.workload ≤ MAXIMUM_WORKLOAD :=
  ⟨Reachable.submit ⟨[], 0, 0⟩ [79 * MB, 79 * MB] (by decide) Reachable.init,
   by decide, by decide⟩

/-- C1 (amended): for every reachable state of the scheduler's
admission/completion step relation, `processingItemCount ≤
MAXIMUM_PROCESSING_ITEM_COUNT` holds unconditionally, and when every
submitted item's workload estimate is bounded by `W`, the workload counter
stays strictly below `MAXIMUM_WORKLOAD + W` (admission only begins while
`workload < MAXIMUM_WORKLOAD`, so it can overshoot the cap by at most one
item's estimate; the strict `workload ≤ MAXIMUM_WORKLOAD` bound of the
claim fails, see the counterexample). -/
theorem C1_cap_invariants (W : Nat) (s : SchedState) (h : Reachable W s) :
    s.processingItemCount ≤ MAXIMUM_PROCESSING_ITEM_COUNT ∧
      s.workload < MAXIMUM_WORKLOAD + W :=
  ⟨(reachable_inv h).2.1, (reachable_inv h).2.2⟩

/-- Witness for `C1_cap_invariants` at a concrete reachable state. -/
theorem C1_cap_invariants_witness :
    (submitTask ⟨[], 0, 0⟩ [MB]).processingItemCount ≤
        MAXIMUM_PROCESSING_ITEM_COUNT ∧
      (submitTask ⟨[], 0, 0⟩ [MB]).workload < MAXIMUM_WORKLOAD + MB :=
  C1_cap_invariants MB _
    (Reachable.submit ⟨[], 0, 0⟩ [MB] (by decide) Reachable.init)

/-- C2, counterexample.  A single 100 MB `PENDING` item is considered at a
running workload total of 0; adding its estimate would exceed
`MAXIMUM_WORKLOAD` (100 MB > 80 MB), so per the claim it should stay
`PENDING`, yet the scan admits it to `PROCESSING`. -/
theorem C2_counterexample :
    MAXIMUM_WORKLOAD < 0 + 100 * MB ∧
      cexC2State.groups = [[⟨PROCESSING, 100 * MB⟩]] :=
  ⟨by decide, by decide⟩

/-- C2 (amended): the admission scan's stopping rule is a *pre*-check: at
an item's turn, if `processingItemCount ≥ MAXIMUM_PROCESSING_ITEM_COUNT` or
`workload ≥ MAXIMUM_WORKLOAD` already holds, the item is deferred (all item
states are left untouched) and scanning stops; otherwise a `PENDING` item
is always admitted to `PROCESSING`, regardless of whether adding its own
workload estimate overshoots `MAXIMUM_WORKLOAD` (the claim's
would-exceed test is not performed; the count half of the claim coincides
with the pre-check since counts rise by exactly 1). -/
theorem C2_admission_rule (it : LoaderTaskItem) (rest : List LoaderTaskItem)
    (w c : Nat) :
    (maximumLoad w c = true →
        scanGroup (it :: rest) w c = ⟨it :: rest, w, c, true⟩) ∧
      (maximumLoad w c = false → it.state = PENDING →
        (scanGroup (it :: rest) w c).items.head? =
          some ⟨PROCESSING, it.workload⟩) := by
  constructor
  · intro hml
    simp [scanGroup, hml]
  · intro hml hst
    simp [scanGroup, hml, hst]

/-- Witness for `C2_admission_rule`: at the cap, a pending 5-byte item is
deferred with the scan stopped; under the cap, a pending 100 MB item is
admitted. -/
theorem C2_admission_rule_witness :
    scanGroup [⟨PENDING, 5⟩] MAXIMUM_WORKLOAD 0 =
        ⟨[⟨PENDING, 5⟩], MAXIMUM_WORKLOAD, 0, true⟩ ∧
      (scanGroup [⟨PENDING, 100 * MB⟩] 0 0).items.head? =
        some ⟨PROCESSING, 100 * MB⟩ :=
  ⟨(C2_admission_rule ⟨PENDING, 5⟩ [] MAXIMUM_WORKLOAD 0).1 (by decide),
   (C2_admission_rule ⟨PENDING, 100 * MB⟩ [] 0 0).2 (by decide) rfl⟩

/-! ## Metadata-store helper lemmas -/

theorem find?_path_append_ne (store : List FileMetadata) (m : FileMetadata)
    (p : String) (h : m.filePath ≠ p) :
    (store ++ [m]).find? (fun r => r.filePath = p) =
      store.find? (fun r => r.filePath = p) := by
  rw [List.find?_append]
  have : List.find? (fun r => r.filePath = p) [m] = none := by
    simp [List.find?, h]
  rw [this]
  cases store.find? (fun r => r.filePath = p) <;> rfl

theorem find?_path_updateFileMetadata_ne (store : List FileMetadata)
    (q p : String) (hs : String) (lm sz : Nat) (uid : String) (h : q ≠ p) :
    (updateFileMetadata store q hs lm sz uid).find? (fun r => r.filePath = p) =
      store.find? (fun r => r.filePath = p) := by
  induction store with
  | nil => rfl
  | cons r l ih =>
    simp only [updateFileMetadata, List.map_cons] at ih ⊢
    by_cases hr : r.filePath = q
    · rw [if_pos hr]
      rw [List.find?_cons_of_neg _ (by simp [hr, h]),
        List.find?_cons_of_neg _ (by simp [hr, h])]
      exact ih
    · rw [if_neg hr]
      by_cases hp : r.filePath = p
      · rw [List.find?_cons_of_pos _ (by simp [hp]), List.find?_cons_of_pos _ (by simp [hp])]
      · rw [List.find?_cons_of_neg _ (by simp [hp]), List.find?_cons_of_neg _ (by simp [hp])]
        exact ih

theorem find?_path_deleteFileMetadata_ne (store : List FileMetadata)
    (q p : String) (h : q ≠ p) :
    (deleteFileMetadata store q).find? (fun r => r.filePath = p) =
      store.find? (fun r => r.filePath = p) := by
  induction store with
  | nil => rfl
  | cons r l ih =>
    simp only [deleteFileMetadata, List.filter_cons]
    by_cases hr : r.filePath = q
    · rw [if_neg (by simp [hr]), List.find?_cons_of_neg _ (by simp [hr, h])]
      exact ih
    · rw [if_pos (by simp [hr])]
      by_cases hp : r.filePath = p
      · rw [List.find?_cons_of_pos _ (by simp [hp]), List.find?_cons_of_pos _ (by simp [hp])]
      · rw [List.find?_cons_of_neg _ (by simp [hp]), List.find?_cons_of_neg _ (by simp [hp])]
        exact ih

theorem deleteFileMetadata_not_path (store : List FileMetadata) (p : String) :
    ∀ r ∈ deleteFileMetadata store p, r.filePath ≠ p := by
  intro r hr
  have := (List.mem_filter.mp hr).2
  simpa using this

theorem deleteFileMetadata_sub (store : List FileMetadata) (p : String) :
    ∀ r ∈ deleteFileMetadata store p, r ∈ store := by
  intro r hr
  exact (List.mem_filter.mp hr).1

/-! ## Deletion-scan lemmas -/

theorem deletionScan_events_mono (processed : List String) :
    ∀ (list : List FileMetadata) (events : List Event) (store : List FileMetadata)
      (e : Event), e ∈ events →
      e ∈ (deletionScan processed list events store).1 := by
  intro list
  induction list with
  | nil => intro events store e he; simpa [deletionScan] using he
  | cons m rest ih =>
    intro events store e he
    simp only [deletionScan]
    by_cases hm : m.filePath ∈ processed
    · rw [if_pos hm]; exact ih events store e he
    · rw [if_neg hm]
      exact ih _ _ e (List.mem_append.mpr (Or.inl he))

theorem deletionScan_store_sub (processed : List String) :
    ∀ (list : List FileMetadata) (events : List Event) (store : List FileMetadata)
      (r : FileMetadata), r ∈ (deletionScan processed list events store).2 →
      r ∈ store := by
  intro list
  induction list with
  | nil => intro events store r hr; simpa [deletionScan] using hr
  | cons m rest ih =>
    intro events store r hr
    simp only [deletionScan] at hr
    by_cases hm : m.filePath ∈ processed
    · rw [if_pos hm] at hr; exact ih events store r hr
    · rw [if_neg hm] at hr
      exact deleteFileMetadata_sub store m.filePath r (ih _ _ r hr)

theorem deletionScan_absent (processed : List String) :
    ∀ (list : List FileMetadata) (events : List Event) (store : List FileMetadata)
      (m : FileMetadata), m ∈ list → m.filePath ∉ processed →
      Event.deleteLoader m.embedjs_unique_id ∈ (deletionScan processed list events store).1 ∧
      Event.deleteMeta m.filePath ∈ (deletionScan processed list events store).1 ∧
      ∀ r ∈ (deletionScan processed list events store).2, r.filePath ≠ m.filePath := by
  intro list
  induction list with
  | nil => intro _ _ m hm; simp at hm
  | cons m0 rest ih =>
    intro events store m hm habs
    rcases List.mem_cons.mp hm with he | he
    · subst he
      simp only [deletionScan, if_neg habs]
      refine ⟨deletionScan_events_mono processed rest _ _ _ ?_,
        deletionScan_events_mono processed rest _ _ _ ?_, ?_⟩
      · simp
      · simp
      · intro r hr
        exact deleteFileMetadata_not_path store m.filePath r
          (deletionScan_store_sub processed rest _ _ r hr)
    · simp only [deletionScan]
      by_cases hm0 : m0.filePath ∈ processed
      · rw [if_pos hm0]
        exact ih events store m he habs
      · rw [if_neg hm0]
        exact ih _ _ m he habs

theorem deletionScan_deleteMeta_src (processed : List String) :
    ∀ (list : List FileMetadata) (events : List Event) (store : List FileMetadata)
      (p : String), Event.deleteMeta p ∈ (deletionScan processed list events store).1 →
      Event.deleteMeta p ∈ events ∨ p ∉ processed := by
  intro list
  induction list with
  | nil => intro events store p hp; left; simpa [deletionScan] using hp
  | cons m rest ih =>
    intro events store p hp
    simp only [deletionScan] at hp
    by_cases hm : m.filePath ∈ processed
    · rw [if_pos hm] at hp; exact ih events store p hp
    · rw [if_neg hm] at hp
      rcases ih _ _ p hp with h | h
      · rcases List.mem_append.mp h with h | h
        · exact Or.inl h
        · right
          simp only [List.mem_cons, List.not_mem_nil, or_false] at h
          have hpm : p = m.filePath := by
            rcases h with h | h
            · exact Event.noConfusion h
            · injection h
          rw [hpm]; exact hm
      · exact Or.inr h

theorem deletionScan_untouched (processed : List String) (p uid : String)
    (hp : p ∈ processed) :
    ∀ (list : List FileMetadata) (events : List Event) (store : List FileMetadata),
      (∀ m' ∈ list, m'.embedjs_unique_id = uid → m'.filePath = p) →
      (∀ e ∈ (deletionScan processed list events store).1,
        e ∈ events ∨ ¬ TouchesFile e p uid) ∧
      (deletionScan processed list events store).2.find? (fun r => r.filePath = p) =
        store.find? (fun r => r.filePath = p) := by
  intro list
  induction list with
  | nil =>
    intro events store _
    exact ⟨fun e he => Or.inl (by simpa [deletionScan] using he), by simp [deletionScan]⟩
  | cons m rest ih =>
    intro events store hu
    have hurest : ∀ m' ∈ rest, m'.embedjs_unique_id = uid → m'.filePath = p :=
      fun m' hm' => hu m' (List.mem_cons_of_mem _ hm')
    simp only [deletionScan]
    by_cases hm : m.filePath ∈ processed
    · rw [if_pos hm]
      exact ih events store hurest
    · rw [if_neg hm]
      obtain ⟨ihe, ihs⟩ := ih
        (events ++ [.deleteLoader m.embedjs_unique_id, .deleteMeta m.filePath])
        (deleteFileMetadata store m.filePath) hurest
      constructor
      · intro e he
        rcases ihe e he with h | h
        · rcases List.mem_append.mp h with h | h
          · exact Or.inl h
          · right
            simp only [List.mem_cons, List.mem_singleton] at h
            intro htouch
            rcases h with h | h | h
            · subst h
              rcases htouch with ⟨b, hb⟩ | hb
              · cases hb
              · have : m.embedjs_unique_id = uid := by injection hb
                exact hm (by rw [hu m (List.mem_cons_self _ _) this]; exact hp)
            · subst h
              rcases htouch with ⟨b, hb⟩ | hb <;> cases hb
            · cases h
        · exact Or.inr h
      · rw [ihs]
        exact find?_path_deleteFileMetadata_ne store m.filePath p
          (fun hc => hm (hc ▸ hp))

/-! ## Per-file loop lemmas -/

theorem processFiles_mono (env : Env) (emap : String → Option FileMetadata) :
    ∀ (files : List FileInput) (acc acc' : IncAcc),
      processFiles env emap files acc = .ok acc' →
      (∀ e ∈ acc.events, e ∈ acc'.events) ∧
      (∀ x ∈ acc.uniqueIds, x ∈ acc'.uniqueIds) ∧
      acc'.processedFilePaths = acc.processedFilePaths ++ files.map FileInput.path := by
  intro files
  induction files with
  | nil =>
    intro acc acc' h
    simp only [processFiles] at h
    cases h
    exact ⟨fun e he => he, fun x hx => hx, by simp⟩
  | cons f rest ih =>
    intro acc acc' h
    simp only [processFiles] at h
    cases hh : env.hashOf f.path with
    | error e => rw [hh] at h; simp at h
    | ok currentHash =>
      rw [hh] at h
      simp only [] at h
      cases hm : emap f.path with
      | none =>
        rw [hm] at h
        simp only [] at h
        obtain ⟨me, mu, hp⟩ := ih _ _ h
        exact ⟨fun x hx => me x (List.mem_append_left _ hx),
               fun x hx => mu x (List.mem_append_left _ hx), by simp [hp]⟩
      | some m =>
        rw [hm] at h
        simp only [] at h
        by_cases hc : m.hash ≠ currentHash ∨ m.lastModified ≠ env.mtimeOf f.path
        · rw [if_pos hc] at h
          obtain ⟨me, mu, hp⟩ := ih _ _ h
          exact ⟨fun x hx => me x (List.mem_append_left _ hx),
                 fun x hx => mu x (List.mem_append_left _ hx), by simp [hp]⟩
        · rw [if_neg hc] at h
          obtain ⟨me, mu, hp⟩ := ih _ _ h
          exact ⟨fun x hx => me x hx,
                 fun x hx => mu x (List.mem_append_left _ hx), by simp [hp]⟩

theorem processFiles_untouched (env : Env) (emap : String → Option FileMetadata)
    (p : String) (m : FileMetadata) (hme : emap p = some m)
    (hh : env.hashOf p = .ok m.hash) (ht : env.mtimeOf p = m.lastModified)
    (hu : ∀ q m', emap q = some m' →
      m'.embedjs_unique_id = m.embedjs_unique_id → q = p) :
    ∀ (files : List FileInput) (acc acc' : IncAcc),
      processFiles env emap files acc = .ok acc' →
      (∀ e ∈ acc'.events, e ∈ acc.events ∨ ¬ TouchesFile e p m.embedjs_unique_id) ∧
      acc'.store.find? (fun r => r.filePath = p) =
        acc.store.find? (fun r => r.filePath = p) := by
  intro files
  induction files with
  | nil =>
    intro acc acc' h
    simp only [processFiles] at h
    cases h
    exact ⟨fun e he => Or.inl he, rfl⟩
  | cons f rest ih =>
    intro acc acc' h
    simp only [processFiles] at h
    cases hh2 : env.hashOf f.path with
    | error e => rw [hh2] at h; simp at h
    | ok currentHash =>
      rw [hh2] at h
      simp only [] at h
      cases hm' : emap f.path with
      | none =>
        rw [hm'] at h
        simp only [] at h
        have hfp : f.path ≠ p := by
          intro hq
          rw [hq, hme] at hm'
          cases hm'
        obtain ⟨ihe, ihs⟩ := ih _ _ h
        constructor
        · intro e he
          rcases ihe e he with hin | hn
          · rcases List.mem_append.mp hin with hin | hin
            · exact Or.inl hin
            · right
              simp only [List.mem_cons, List.not_mem_nil, or_false] at hin
              intro htouch
              rcases hin with hin | hin
              · subst hin
                rcases htouch with ⟨b, hb⟩ | hb
                · rw [Event.addLoader.injEq] at hb
                  exact hfp hb.1
                · exact Event.noConfusion hb
              · subst hin
                rcases htouch with ⟨b, hb⟩ | hb <;> exact Event.noConfusion hb
          · exact Or.inr hn
        · rw [ihs]
          exact find?_path_append_ne acc.store _ p hfp
      | some m' =>
        rw [hm'] at h
        simp only [] at h
        by_cases hc : m'.hash ≠ currentHash ∨ m'.lastModified ≠ env.mtimeOf f.path
        · rw [if_pos hc] at h
          have hfp : f.path ≠ p := by
            intro hq
            rw [hq, hme] at hm'
            injection hm' with hmm
            subst hmm
            rw [hq] at hh2
            rw [hh] at hh2
            injection hh2 with hcur
            rw [hq] at hc
            rcases hc with hc | hc
            · exact hc hcur
            · exact hc ht.symm
          obtain ⟨ihe, ihs⟩ := ih _ _ h
          constructor
          · intro e he
            rcases ihe e he with hin | hn
            · rcases List.mem_append.mp hin with hin | hin
              · exact Or.inl hin
              · right
                simp only [List.mem_cons, List.not_mem_nil, or_false] at hin
                intro htouch
                rcases hin with hin | hin | hin
                · subst hin
                  rcases htouch with ⟨b, hb⟩ | hb
                  · exact Event.noConfusion hb
                  · rw [Event.deleteLoader.injEq] at hb
                    exact hfp (hu f.path m' hm' hb)
                · subst hin
                  rcases htouch with ⟨b, hb⟩ | hb
                  · rw [Event.addLoader.injEq] at hb
                    exact hfp hb.1
                  · exact Event.noConfusion hb
                · subst hin
                  rcases htouch with ⟨b, hb⟩ | hb <;> exact Event.noConfusion hb
            · exact Or.inr hn
          · rw [ihs]
            exact find?_path_updateFileMetadata_ne acc.store f.path p _ _ _ _ hfp
        · rw [if_neg hc] at h
          obtain ⟨ihe, ihs⟩ := ih _ _ h
          exact ⟨fun e he => ihe e he, ihs⟩

theorem processFiles_no_deleteMeta (env : Env) (emap : String → Option FileMetadata) :
    ∀ (files : List FileInput) (acc acc' : IncAcc),
      processFiles env emap files acc = .ok acc' →
      ∀ p', Event.deleteMeta p' ∈ acc'.events → Event.deleteMeta p' ∈ acc.events := by
  intro files
  induction files with
  | nil =>
    intro acc acc' h
    simp only [processFiles] at h
    cases h
    exact fun _ hp => hp
  | cons f rest ih =>
    intro acc acc' h
    simp only [processFiles] at h
    cases hh : env.hashOf f.path with
    | error e => rw [hh] at h; simp at h
    | ok currentHash =>
      rw [hh] at h
      simp only [] at h
      cases hm : emap f.path with
      | none =>
        rw [hm] at h
        simp only [] at h
        intro p' hp'
        have := ih _ _ h p' hp'
        rcases List.mem_append.mp this with hin | hin
        · exact hin
        · simp only [List.mem_cons, List.not_mem_nil, or_false] at hin
          rcases hin with hin | hin <;> exact Event.noConfusion hin
      | some m =>
        rw [hm] at h
        simp only [] at h
        by_cases hc : m.hash ≠ currentHash ∨ m.lastModified ≠ env.mtimeOf f.path
        · rw [if_pos hc] at h
          intro p' hp'
          have := ih _ _ h p' hp'
          rcases List.mem_append.mp this with hin | hin
          · exact hin
          · simp only [List.mem_cons, List.not_mem_nil, or_false] at hin
            rcases hin with hin | hin | hin <;> exact Event.noConfusion hin
        · rw [if_neg hc] at h
          intro p' hp'
          exact ih _ _ h p' hp'

theorem processFiles_unchanged_mem (env : Env) (emap : String → Option FileMetadata)
    (p : String) (m : FileMetadata) (hme : emap p = some m)
    (hh : env.hashOf p = .ok m.hash) (ht : env.mtimeOf p = m.lastModified) :
    ∀ (files : List FileInput) (acc acc' : IncAcc),
      processFiles env emap files acc = .ok acc' →
      (∃ f ∈ files, f.path = p) → m.filePath ∈ acc'.uniqueIds := by
  intro files
  induction files with
  | nil =>
    intro acc acc' _ hex
    obtain ⟨f, hf, _⟩ := hex
    simp at hf
  | cons f rest ih =>
    intro acc acc' h hex
    simp only [processFiles] at h
    by_cases hfp : f.path = p
    · rw [hfp, hh] at h
      simp only [] at h
      rw [hme] at h
      simp only [] at h
      have hcond : ¬(m.hash ≠ m.hash ∨ m.lastModified ≠ env.mtimeOf p) := by
        push_neg
        exact ⟨rfl, ht.symm⟩
      rw [if_neg hcond] at h
      have := (processFiles_mono env emap rest _ _ h).2.1
      exact this m.filePath (List.mem_append_right _ (by simp))
    · have hex' : ∃ f' ∈ rest, f'.path = p := by
        obtain ⟨f', hf', hfp'⟩ := hex
        rcases List.mem_cons.mp hf' with he | he
        · subst he; exact absurd hfp' hfp
        · exact ⟨f', he, hfp'⟩
      cases hh2 : env.hashOf f.path with
      | error e => rw [hh2] at h; simp at h
      | ok currentHash =>
        rw [hh2] at h
        simp only [] at h
        cases hm' : emap f.path with
        | none =>
          rw [hm'] at h
          simp only [] at h
          exact ih _ _ h hex'
        | some m' =>
          rw [hm'] at h
          simp only [] at h
          by_cases hc : m'.hash ≠ currentHash ∨ m'.lastModified ≠ env.mtimeOf f.path
          · rw [if_pos hc] at h
            exact ih _ _ h hex'
          · rw [if_neg hc] at h
            exact ih _ _ h hex'

/-- Destructuring of a resolved incremental master task into its
per-file-loop accumulator followed by the deletion scan. -/
theorem incrementalMasterTask_resolved (env : Env) (store0 : List FileMetadata)
    (dir : String) (files : List FileInput) (evs : List Event)
    (st : List FileMetadata) (ret : LoaderReturn)
    (h : incrementalMasterTask env store0 dir files = .resolved evs st ret) :
    ∃ acc,
      processFiles env
        (fun p => (getDirectoryMetadata store0 dir).find? (fun m => m.filePath = p))
        files ⟨store0, [], [], 0, []⟩ = .ok acc ∧
      evs = (deletionScan acc.processedFilePaths (getDirectoryMetadata store0 dir)
        acc.events acc.store).1 ∧
      st = (deletionScan acc.processedFilePaths (getDirectoryMetadata store0 dir)
        acc.events acc.store).2 ∧
      ret = ⟨acc.entriesAdded, "DirectoryLoader_", acc.uniqueIds, "DirectoryLoader"⟩ := by
  unfold incrementalMasterTask at h
  simp only [] at h
  cases hpf : processFiles env
      (fun p => (getDirectoryMetadata store0 dir).find? (fun m => m.filePath = p))
      files ⟨store0, [], [], 0, []⟩ with
  | error pr =>
    rw [hpf] at h
    simp at h
  | ok acc =>
    rw [hpf] at h
    simp only [] at h
    injection h with h1 h2 h3
    exact ⟨acc, rfl, h1.symm, h2.symm, h3.symm⟩

/-! ## Claims C3, C4, C10 -/

/-- C3, counterexample.  In the `incrementalUpdate` variant, `add()` on a
*file*-type item dispatches to `fileTask` (lines 1581-1582), whose unit of
work unconditionally calls `addFileLoader` (lines 1009-1018) — the
hash-skip logic exists only in the metadata-store variant.  Concretely:
`/d/a.txt` is unchanged (its record `recStable` matches `envStable`'s hash
and mtime), yet a second `add()` with `incrementalUpdate = true`,
`forceReload = false` performs one backend `addFileLoader` call rather than
zero. -/
theorem C3_counterexample :
    envStable.hashOf "/d/a.txt" = .ok recStable.hash ∧
      recStable.filePath = "/d/a.txt" ∧
      (fileTask envStable ⟨"/d/a.txt", 10, 5⟩ false true).1 =
        [Event.addLoader "/d/a.txt" false] ∧
      (fileTask envStable ⟨"/d/a.txt", 10, 5⟩ false true).1 ≠ [] :=
  ⟨rfl, rfl, rfl, by decide⟩

/-- C3 (amended): within a *directory* item's incremental sync
(`incrementalUpdate = true`, `forceReload = false`), a file whose record
matches both the current content hash and mtime causes zero
embedding-backend calls (no `addFileLoader` on its path, no `deleteLoader`
on its record's handle, assuming that handle is not shared with another
record) and leaves its persisted record untouched.  For a *file*-type item
the `incrementalUpdate` variant's `fileTask` always calls `addFileLoader`
(see the counterexample). -/
theorem C3_unchanged_file_idempotent (env : Env) (store0 : List FileMetadata)
    (dir : String) (files : List FileInput) (f : FileInput) (m : FileMetadata)
    (evs : List Event) (st : List FileMetadata) (ret : LoaderReturn)
    (hrun : incrementalMasterTask env store0 dir files = .resolved evs st ret)
    (hf : f ∈ files)
    (hm : (getDirectoryMetadata store0 dir).find? (fun r => r.filePath = f.path) =
      some m)
    (hh : env.hashOf f.path = .ok m.hash)
    (ht : env.mtimeOf f.path = m.lastModified)
    (hu : ∀ r ∈ store0, r.embedjs_unique_id = m.embedjs_unique_id →
      r.filePath = m.filePath) :
    (∀ b, Event.addLoader f.path b ∉ evs) ∧
      Event.deleteLoader m.embedjs_unique_id ∉ evs ∧
      st.find? (fun r => r.filePath = f.path) =
        store0.find? (fun r => r.filePath = f.path) := by
  obtain ⟨acc, hpf, hevs, hst, _⟩ :=
    incrementalMasterTask_resolved env store0 dir files evs st ret hrun
  have hmp : m.filePath = f.path := by
    have := List.find?_some hm
    simpa using this
  have hmem : m ∈ getDirectoryMetadata store0 dir := List.mem_of_find?_eq_some hm
  have hsub : ∀ x ∈ getDirectoryMetadata store0 dir, x ∈ store0 := by
    intro x hx
    simp only [getDirectoryMetadata] at hx
    exact (List.mem_filter.mp hx).1
  have hu' : ∀ q m',
      (getDirectoryMetadata store0 dir).find? (fun r => r.filePath = q) = some m' →
      m'.embedjs_unique_id = m.embedjs_unique_id → q = f.path := by
    intro q m' hq huid
    have hm'mem := List.mem_of_find?_eq_some hq
    have hm'p : m'.filePath = q := by
      have := List.find?_some hq
      simpa using this
    rw [← hm'p, hu m' (hsub m' hm'mem) huid, hmp]
  obtain ⟨hpe, hps⟩ :=
    processFiles_untouched env _ f.path m hm hh ht hu' files _ acc hpf
  have hproc := (processFiles_mono env _ files _ _ hpf).2.2
  have hfp_proc : f.path ∈ acc.processedFilePaths := by
    rw [hproc]
    exact List.mem_append_right _ (List.mem_map.mpr ⟨f, hf, rfl⟩)
  have hu2 : ∀ m' ∈ getDirectoryMetadata store0 dir,
      m'.embedjs_unique_id = m.embedjs_unique_id → m'.filePath = f.path := by
    intro m' hm' huid
    rw [hu m' (hsub m' hm') huid, hmp]
  obtain ⟨hse, hss⟩ :=
    deletionScan_untouched acc.processedFilePaths f.path m.embedjs_unique_id
      hfp_proc (getDirectoryMetadata store0 dir) acc.events acc.store hu2
  refine ⟨?_, ?_, ?_⟩
  · intro b hbmem
    rw [hevs] at hbmem
    rcases hse _ hbmem with hin | hn
    · rcases hpe _ hin with hinit | hn2
      · simp at hinit
      · exact hn2 (Or.inl ⟨b, rfl⟩)
    · exact hn (Or.inl ⟨b, rfl⟩)
  · intro hbmem
    rw [hevs] at hbmem
    rcases hse _ hbmem with hin | hn
    · rcases hpe _ hin with hinit | hn2
      · simp at hinit
      · exact hn2 (Or.inr rfl)
    · exact hn (Or.inr rfl)
  · rw [hst, hss, hps]

/-- Witness for `C3_unchanged_file_idempotent`: the one-file directory
`/d` with matching record `recStable` under `envStable` resolves with an
empty trace and the record untouched. -/
theorem C3_unchanged_file_idempotent_witness :
    (∀ b, Event.addLoader "/d/a.txt" b ∉ ([] : List Event)) ∧
      Event.deleteLoader recStable.embedjs_unique_id ∉ ([] : List Event) ∧
      ([recStable].find? (fun r => r.filePath = "/d/a.txt")) =
        ([recStable].find? (fun r => r.filePath = "/d/a.txt")) :=
  C3_unchanged_file_idempotent envStable [recStable] "/d" [⟨"/d/a.txt", 10, 5⟩]
    ⟨"/d/a.txt", 10, 5⟩ recStable [] [recStable]
    ⟨0, "DirectoryLoader_", ["/d/a.txt"], "DirectoryLoader"⟩
    (by decide) (by decide) (by decide) rfl rfl (by decide)

/-- C4 (confirmed): the incremental per-file classification.  With an
existing record `m`, the file is treated as changed — `deleteLoader` on the
old handle, re-add with `forceReload = true`, record replaced via
`updateFileMetadata` with the new hash — exactly when its current hash
differs from `m.hash` *or* its mtime differs from `m.lastModified`; when
both match it is skipped: the trace and the store are unchanged (no backend
calls, no record mutation), and only `existingFileMeta.filePath` is pushed
into `currentUniqueIds`. -/
theorem C4_incremental_changed_iff (env : Env)
    (emap : String → Option FileMetadata) (f : FileInput) (m : FileMetadata)
    (acc : IncAcc) (h : String)
    (hm : emap f.path = some m) (hh : env.hashOf f.path = .ok h) :
    (m.hash ≠ h ∨ m.lastModified ≠ env.mtimeOf f.path →
      processFiles env emap [f] acc = .ok
        { store := updateFileMetadata acc.store f.path h (env.mtimeOf f.path) f.size
            (env.addLoader f.path true).uniqueId,
          events := acc.events ++
            [.deleteLoader m.embedjs_unique_id, .addLoader f.path true,
             .updateMeta f.path h (env.mtimeOf f.path) f.size
               (env.addLoader f.path true).uniqueId],
          processedFilePaths := acc.processedFilePaths ++ [f.path],
          entriesAdded := acc.entriesAdded + 1,
          uniqueIds := acc.uniqueIds ++ [(env.addLoader f.path true).uniqueId] }) ∧
    (m.hash = h ∧ m.lastModified = env.mtimeOf f.path →
      processFiles env emap [f] acc = .ok
        { store := acc.store, events := acc.events,
          processedFilePaths := acc.processedFilePaths ++ [f.path],
          entriesAdded := acc.entriesAdded,
          uniqueIds := acc.uniqueIds ++ [m.filePath] }) := by
  constructor
  · intro hc
    simp only [processFiles]
    rw [hh]
    simp only []
    rw [hm]
    simp only []
    rw [if_pos hc]
  · intro hc
    have hcond : ¬(m.hash ≠ h ∨ m.lastModified ≠ env.mtimeOf f.path) := by
      push_neg
      exact hc
    simp only [processFiles]
    rw [hh]
    simp only []
    rw [hm]
    simp only []
    rw [if_neg hcond]

/-- Witness for `C4_incremental_changed_iff`: a changed file (hash `h1` vs
current `h2`) is delete-then-readded and its record replaced; an unchanged
file is skipped with trace and store untouched. -/
theorem C4_incremental_changed_iff_witness :
    processFiles envEdit (fun _ => some recOld) [⟨"/d/a.txt", 10, 6⟩]
        ⟨[recOld], [], [], 0, []⟩ = .ok
        { store := updateFileMetadata ([recOld] : List FileMetadata) "/d/a.txt" "h2"
            (envEdit.mtimeOf "/d/a.txt") 10
            (envEdit.addLoader "/d/a.txt" true).uniqueId,
          events := ([] : List Event) ++
            [.deleteLoader recOld.embedjs_unique_id, .addLoader "/d/a.txt" true,
             .updateMeta "/d/a.txt" "h2" (envEdit.mtimeOf "/d/a.txt") 10
               (envEdit.addLoader "/d/a.txt" true).uniqueId],
          processedFilePaths := ([] : List String) ++ ["/d/a.txt"],
          entriesAdded := 0 + 1,
          uniqueIds := ([] : List String) ++
            [(envEdit.addLoader "/d/a.txt" true).uniqueId] } ∧
      processFiles envStable (fun _ => some recStable) [⟨"/d/a.txt", 10, 5⟩]
        ⟨[recStable], [], [], 0, []⟩ = .ok
        { store := [recStable], events := ([] : List Event),
          processedFilePaths := ([] : List String) ++ ["/d/a.txt"],
          entriesAdded := 0,
          uniqueIds := ([] : List String) ++ [recStable.filePath] } :=
  ⟨(C4_incremental_changed_iff envEdit (fun _ => some recOld) ⟨"/d/a.txt", 10, 6⟩
      recOld ⟨[recOld], [], [], 0, []⟩ "h2" rfl rfl).1 (Or.inl (by decide)),
   (C4_incremental_changed_iff envStable (fun _ => some recStable)
      ⟨"/d/a.txt", 10, 5⟩ recStable ⟨[recStable], [], [], 0, []⟩ "h1" rfl rfl).2
      ⟨rfl, rfl⟩⟩

/-- C10 (confirmed): in an incremental directory sync, every unchanged
file contributes `existingFileMeta.filePath` — its filesystem path, not its
stored backend handle — to the aggregate result's `uniqueIds` (line 1294,
assigned to `loaderDoneReturn.uniqueIds` at line 1320); so a sync with at
least one unchanged file returns a `uniqueIds` entry that is a file path. -/
theorem C10_unchanged_path_in_uniqueIds (env : Env) (store0 : List FileMetadata)
    (dir : String) (files : List FileInput) (f : FileInput) (m : FileMetadata)
    (evs : List Event) (st : List FileMetadata) (ret : LoaderReturn)
    (hrun : incrementalMasterTask env store0 dir files = .resolved evs st ret)
    (hf : f ∈ files)
    (hm : (getDirectoryMetadata store0 dir).find? (fun r => r.filePath = f.path) =
      some m)
    (hh : env.hashOf f.path = .ok m.hash)
    (ht : env.mtimeOf f.path = m.lastModified) :
    m.filePath ∈ ret.uniqueIds := by
  obtain ⟨acc, hpf, _, _, hret⟩ :=
    incrementalMasterTask_resolved env store0 dir files evs st ret hrun
  have := processFiles_unchanged_mem env _ f.path m hm hh ht files _ _ hpf
    ⟨f, hf, rfl⟩
  rw [hret]
  exact this

/-- Witness for `C10_unchanged_path_in_uniqueIds`: the unchanged file's
path `/d/a.txt` (not its backend handle `uid-1`) appears in the returned
`uniqueIds`. -/
theorem C10_unchanged_path_in_uniqueIds_witness :
    recStable.filePath ∈
      (⟨0, "DirectoryLoader_", ["/d/a.txt"], "DirectoryLoader"⟩ :
        LoaderReturn).uniqueIds :=
  C10_unchanged_path_in_uniqueIds envStable [recStable] "/d"
    [⟨"/d/a.txt", 10, 5⟩] ⟨"/d/a.txt", 10, 5⟩ recStable [] [recStable]
    ⟨0, "DirectoryLoader_", ["/d/a.txt"], "DirectoryLoader"⟩
    (by decide) (by decide) (by decide) rfl rfl

/-! ## Full-refresh lemmas -/

theorem fullRefreshFile_events_mono (env : Env) (acc : FRAcc) (f : FileInput) :
    ∀ e ∈ acc.events, e ∈ (fullRefreshFile env acc f).events := by
  intro e he
  unfold fullRefreshFile
  cases hh : env.hashOf f.path with
  | error err =>
    simp only []
    exact List.mem_append_left _ he
  | ok hsh =>
    simp only []
    exact List.mem_append_left _ (List.mem_append_left _ he)

theorem fullRefreshFile_events_new (env : Env) (acc : FRAcc) (f : FileInput) :
    ∀ e ∈ (fullRefreshFile env acc f).events,
      e ∈ acc.events ∨ e = Event.addLoader f.path true ∨
        ∃ md, e = Event.insertMeta md := by
  intro e he
  unfold fullRefreshFile at he
  cases hh : env.hashOf f.path with
  | error err =>
    rw [hh] at he
    simp only [] at he
    rcases List.mem_append.mp he with h | h
    · exact Or.inl h
    · simp only [List.mem_singleton] at h
      exact Or.inr (Or.inl h)
  | ok hsh =>
    rw [hh] at he
    simp only [] at he
    rcases List.mem_append.mp he with h | h
    · rcases List.mem_append.mp h with h | h
      · exact Or.inl h
      · simp only [List.mem_singleton] at h
        exact Or.inr (Or.inl h)
    · simp only [List.mem_singleton] at h
      exact Or.inr (Or.inr ⟨_, h⟩)

theorem fullRefreshFile_addLoader_mem (env : Env) (acc : FRAcc) (f : FileInput) :
    Event.addLoader f.path true ∈ (fullRefreshFile env acc f).events := by
  unfold fullRefreshFile
  cases hh : env.hashOf f.path with
  | error err =>
    simp only []
    exact List.mem_append_right _ (by simp)
  | ok hsh =>
    simp only []
    exact List.mem_append_left _ (List.mem_append_right _ (by simp))

theorem foldl_fullRefresh_events_mono (env : Env) :
    ∀ (files : List FileInput) (acc : FRAcc),
      ∀ e ∈ acc.events, e ∈ (files.foldl (fullRefreshFile env) acc).events := by
  intro files
  induction files with
  | nil => intro acc e he; simpa using he
  | cons f rest ih =>
    intro acc e he
    simp only [List.foldl_cons]
    exact ih _ e (fullRefreshFile_events_mono env acc f e he)

theorem foldl_fullRefresh_addLoader (env : Env) :
    ∀ (files : List FileInput) (acc : FRAcc) (f : FileInput), f ∈ files →
      Event.addLoader f.path true ∈ (files.foldl (fullRefreshFile env) acc).events := by
  intro files
  induction files with
  | nil => intro acc f hf; simp at hf
  | cons g rest ih =>
    intro acc f hf
    simp only [List.foldl_cons]
    rcases List.mem_cons.mp hf with he | he
    · subst he
      exact foldl_fullRefresh_events_mono env rest _ _
        (fullRefreshFile_addLoader_mem env acc f)
    · exact ih _ f he

theorem foldl_fullRefresh_no_deleteLoader (env : Env) :
    ∀ (files : List FileInput) (acc : FRAcc),
      (∀ e ∈ acc.events, isDeleteLoader e = false) →
      ∀ e ∈ (files.foldl (fullRefreshFile env) acc).events,
        isDeleteLoader e = false := by
  intro files
  induction files with
  | nil => intro acc hacc e he; exact hacc e (by simpa using he)
  | cons f rest ih =>
    intro acc hacc e he
    simp only [List.foldl_cons] at he
    refine ih _ ?_ e he
    intro e' he'
    rcases fullRefreshFile_events_new env acc f e' he' with h | h | ⟨md, h⟩
    · exact hacc e' h
    · subst h; rfl
    · subst h; rfl

/-! ## Claims C5, C6, C7, C8 -/

/-- C5, counterexample.  A `forceReload = true` directory `add()` in the
`incrementalUpdate` variant takes the full-refresh path (lines 1341-1385):
the record `recOld` for `/d/a.txt` exists, yet the trace contains *no*
`deleteLoader` call on its stored handle `uid-old` — only the
metadata-clearing pre-task and the re-add (the code comments at lines
1346-1352 acknowledge the old loaders are not deleted). -/
theorem C5_counterexample :
    recOld ∈ getDirectoryMetadata [recOld] "/d" ∧
      directoryTask envEdit [recOld] "/d" [⟨"/d/a.txt", 10, 6⟩] true false =
        .resolved
          [.deleteDirMeta "/d", .addLoader "/d/a.txt" true,
           .insertMeta ⟨"/d/a.txt", 6, 10, "h2", "uid-new"⟩]
          [⟨"/d/a.txt", 6, 10, "h2", "uid-new"⟩]
          ⟨1, "DirectoryLoader_", ["uid-new"], "DirectoryLoader"⟩ ∧
      ([Event.deleteDirMeta "/d", .addLoader "/d/a.txt" true,
        .insertMeta ⟨"/d/a.txt", 6, 10, "h2", "uid-new"⟩].all
          (fun e => !isDeleteLoader e)) = true :=
  ⟨by decide, by decide, by decide⟩

/-- C5 (amended): with `forceReload = true`, every file in a directory item
is re-added through the add pipeline with `forceReload = true` after the
directory's metadata is cleared, but the full-refresh path issues *no*
backend `deleteLoader` on the stored handles; the claim's explicit
delete-then-readd (deleteLoader on the stored id, then re-add) happens in
the metadata-store variant's `fileTask` for a file with an existing
record. -/
theorem C5_force_reload (env : Env) (store0 : List FileMetadata) (dir : String)
    (files : List FileInput) (incr : Bool) (f : FileInput) (hf : f ∈ files)
    (baseId : String) (store2 : List DocumentMetadata) (file2 : FileInput)
    (m2 : DocumentMetadata) (h2 : String)
    (hm2 : getMetadataByPath baseId store2 file2.path = some m2)
    (hh2 : env.hashOf file2.path = .ok h2)
    (hv : validLoaderResult (env.addLoader file2.path true) = true) :
    (Event.deleteDirMeta dir ∈ (directoryTask env store0 dir files true incr).events ∧
      Event.addLoader f.path true ∈
        (directoryTask env store0 dir files true incr).events ∧
      ∀ e ∈ (directoryTask env store0 dir files true incr).events,
        isDeleteLoader e = false) ∧
    (fileTaskMetadataStoreVariant env baseId store2 file2 true).1 =
      [.deleteLoader m2.unique_id_embedjs, .deleteMetaByUid m2.unique_id_embedjs,
       .addLoader file2.path true,
       .upsertMeta ⟨baseId, file2.path, h2, (env.addLoader file2.path true).uniqueId,
         (env.addLoader file2.path true).loaderType, file2.lastModified⟩] := by
  have hdt : directoryTask env store0 dir files true incr =
      fullRefreshRun env store0 dir files := by
    simp [directoryTask]
  constructor
  · rw [hdt]
    unfold fullRefreshRun
    simp only [TaskOutcome.events]
    refine ⟨?_, ?_, ?_⟩
    · exact foldl_fullRefresh_events_mono env files _ _ (by simp)
    · exact foldl_fullRefresh_addLoader env files _ f hf
    · refine foldl_fullRefresh_no_deleteLoader env files _ ?_
      intro e he
      simp only [List.mem_singleton] at he
      subst he
      rfl
  · unfold fileTaskMetadataStoreVariant
    rw [hh2]
    simp only []
    rw [hm2]
    simp only []
    rw [if_neg (by simp)]
    rw [if_pos hv]
    rfl

/-- Witness for `C5_force_reload`: one-file directory `/d` with record
`recOld`, plus the metadata-store variant on `/d/a.txt` with record
`recDoc2`. -/
theorem C5_force_reload_witness :
    (Event.deleteDirMeta "/d" ∈
        (directoryTask envEdit [recOld] "/d" [⟨"/d/a.txt", 10, 6⟩] true false).events ∧
      Event.addLoader (⟨"/d/a.txt", 10, 6⟩ : FileInput).path true ∈
        (directoryTask envEdit [recOld] "/d" [⟨"/d/a.txt", 10, 6⟩] true false).events ∧
      ∀ e ∈ (directoryTask envEdit [recOld] "/d" [⟨"/d/a.txt", 10, 6⟩] true
          false).events, isDeleteLoader e = false) ∧
    (fileTaskMetadataStoreVariant envEdit "kb1" [recDoc2] ⟨"/d/a.txt", 10, 5⟩
        true).1 =
      [.deleteLoader recDoc2.unique_id_embedjs,
       .deleteMetaByUid recDoc2.unique_id_embedjs,
       .addLoader (⟨"/d/a.txt", 10, 5⟩ : FileInput).path true,
       .upsertMeta ⟨"kb1", (⟨"/d/a.txt", 10, 5⟩ : FileInput).path, "h2",
         (envEdit.addLoader (⟨"/d/a.txt", 10, 5⟩ : FileInput).path true).uniqueId,
         (envEdit.addLoader (⟨"/d/a.txt", 10, 5⟩ : FileInput).path true).loaderType,
         (⟨"/d/a.txt", 10, 5⟩ : FileInput).lastModified⟩] :=
  C5_force_reload envEdit [recOld] "/d" [⟨"/d/a.txt", 10, 6⟩] false
    ⟨"/d/a.txt", 10, 6⟩ (by decide) "kb1" [recDoc2] ⟨"/d/a.txt", 10, 5⟩ recDoc2
    "h2" (by decide) rfl (by decide)

/-- C6, counterexample.  The default directory sync (`incrementalUpdate`
defaults to `false` in `add`, line 1575) takes the full-refresh path: the
record `recGone` of the vanished file `/d/gone.txt` *is* removed (swept by
`deleteDirectoryMetadata`), but no backend `deleteLoader` is ever issued on
its stored handle `uid-gone`, contradicting the claim for this sync. -/
theorem C6_counterexample :
    recGone ∈ getDirectoryMetadata [recGone] "/d" ∧
      recGone.filePath ∉ ([⟨"/d/a.txt", 10, 6⟩] : List FileInput).map FileInput.path ∧
      directoryTask envEdit [recGone] "/d" [⟨"/d/a.txt", 10, 6⟩] false false =
        .resolved
          [.deleteDirMeta "/d", .addLoader "/d/a.txt" true,
           .insertMeta ⟨"/d/a.txt", 6, 10, "h2", "uid-new"⟩]
          [⟨"/d/a.txt", 6, 10, "h2", "uid-new"⟩]
          ⟨1, "DirectoryLoader_", ["uid-new"], "DirectoryLoader"⟩ ∧
      ([Event.deleteDirMeta "/d", .addLoader "/d/a.txt" true,
        .insertMeta ⟨"/d/a.txt", 6, 10, "h2", "uid-new"⟩].all
          (fun e => !isDeleteLoader e)) = true ∧
      (([⟨"/d/a.txt", 6, 10, "h2", "uid-new"⟩] : List FileMetadata).all
          (fun r => r.filePath != "/d/gone.txt")) = true :=
  ⟨by decide, by decide, by decide, by decide, by decide⟩

/-- C6 (amended): in an *incremental* directory sync, every record under
the directory whose path is absent from the current enumeration is treated
as deleted — `deleteLoader` on its stored handle, record removed — and the
deletion scan never removes the record of a file still present (it emits no
`deleteMeta` for a present path).  In the full-refresh path (the default,
`incrementalUpdate = false`), absent files' records are swept by
`deleteDirectoryMetadata` with *no* backend `deleteLoader`
(counterexample). -/
theorem C6_deletion_scan (env : Env) (store0 : List FileMetadata) (dir : String)
    (files : List FileInput) (evs : List Event) (st : List FileMetadata)
    (ret : LoaderReturn) (m : FileMetadata)
    (hrun : incrementalMasterTask env store0 dir files = .resolved evs st ret)
    (hmem : m ∈ getDirectoryMetadata store0 dir) :
    (m.filePath ∉ files.map FileInput.path →
      Event.deleteLoader m.embedjs_unique_id ∈ evs ∧
      Event.deleteMeta m.filePath ∈ evs ∧
      ∀ r ∈ st, r.filePath ≠ m.filePath) ∧
    (m.filePath ∈ files.map FileInput.path →
      Event.deleteMeta m.filePath ∉ evs) := by
  obtain ⟨acc, hpf, hevs, hst, _⟩ :=
    incrementalMasterTask_resolved env store0 dir files evs st ret hrun
  have hproc : acc.processedFilePaths = files.map FileInput.path := by
    have := (processFiles_mono env _ files _ _ hpf).2.2
    simpa using this
  constructor
  · intro habs
    have habs' : m.filePath ∉ acc.processedFilePaths := by
      rw [hproc]; exact habs
    obtain ⟨h1, h2, h3⟩ := deletionScan_absent acc.processedFilePaths
      (getDirectoryMetadata store0 dir) acc.events acc.store m hmem habs'
    refine ⟨?_, ?_, ?_⟩
    · rw [hevs]; exact h1
    · rw [hevs]; exact h2
    · rw [hst]; exact h3
  · intro hpres hmem2
    rw [hevs] at hmem2
    rcases deletionScan_deleteMeta_src acc.processedFilePaths _ acc.events
        acc.store m.filePath hmem2 with hin | hnot
    · have := processFiles_no_deleteMeta env _ files _ _ hpf m.filePath hin
      simp at this
    · rw [hproc] at hnot
      exact hnot hpres

/-- Witness for `C6_deletion_scan`: incremental sync of `/d` where the
recorded file `/d/gone.txt` has vanished and `/d/a.txt` is new. -/
theorem C6_deletion_scan_witness :
    (recGone.filePath ∉ ([⟨"/d/a.txt", 10, 6⟩] : List FileInput).map FileInput.path →
      Event.deleteLoader recGone.embedjs_unique_id ∈
        [Event.addLoader "/d/a.txt" false,
         .insertMeta ⟨"/d/a.txt", 6, 10, "h2", "uid-new"⟩,
         .deleteLoader "uid-gone", .deleteMeta "/d/gone.txt"] ∧
      Event.deleteMeta recGone.filePath ∈
        [Event.addLoader "/d/a.txt" false,
         .insertMeta ⟨"/d/a.txt", 6, 10, "h2", "uid-new"⟩,
         .deleteLoader "uid-gone", .deleteMeta "/d/gone.txt"] ∧
      ∀ r ∈ ([⟨"/d/a.txt", 6, 10, "h2", "uid-new"⟩] : List FileMetadata),
        r.filePath ≠ recGone.filePath) ∧
    (recGone.filePath ∈ ([⟨"/d/a.txt", 10, 6⟩] : List FileInput).map FileInput.path →
      Event.deleteMeta recGone.filePath ∉
        [Event.addLoader "/d/a.txt" false,
         .insertMeta ⟨"/d/a.txt", 6, 10, "h2", "uid-new"⟩,
         .deleteLoader "uid-gone", .deleteMeta "/d/gone.txt"]) :=
  C6_deletion_scan envEdit [recGone] "/d" [⟨"/d/a.txt", 10, 6⟩]
    [Event.addLoader "/d/a.txt" false,
     .insertMeta ⟨"/d/a.txt", 6, 10, "h2", "uid-new"⟩,
     .deleteLoader "uid-gone", .deleteMeta "/d/gone.txt"]
    [⟨"/d/a.txt", 6, 10, "h2", "uid-new"⟩]
    ⟨1, "DirectoryLoader_", ["uid-new"], "DirectoryLoader"⟩ recGone
    (by decide) (by decide)

/-- C7, counterexample.  Forced reload of the directory `/docs` whose file
`/docs/r.md` has an existing record `recDoc` (hash `hOld`, backend handle
`uid-7`): the full-refresh path writes a replacement record with the new
hash `hNew` (the `insertMeta` event) while no `deleteLoader` on `uid-7`
occurs anywhere in the trace — so no `deleteLoader` precedes the write, and
the system ends up holding a new-hash record while the superseded backend
artifact was never deleted. -/
theorem C7_counterexample :
    recDoc ∈ getDirectoryMetadata [recDoc] "/docs" ∧
      directoryTask envDoc [recDoc] "/docs" [⟨"/docs/r.md", 10, 9⟩] true false =
        .resolved
          [.deleteDirMeta "/docs", .addLoader "/docs/r.md" true,
           .insertMeta ⟨"/docs/r.md", 9, 10, "hNew", "uid-8"⟩]
          [⟨"/docs/r.md", 9, 10, "hNew", "uid-8"⟩]
          ⟨1, "DirectoryLoader_", ["uid-8"], "DirectoryLoader"⟩ ∧
      ("hNew" : String) ≠ recDoc.hash ∧
      Event.deleteLoader recDoc.embedjs_unique_id ∉
        [Event.deleteDirMeta "/docs", .addLoader "/docs/r.md" true,
         .insertMeta ⟨"/docs/r.md", 9, 10, "hNew", "uid-8"⟩] :=
  ⟨by decide, by decide, by decide, by decide⟩

/-- C7 (amended): in the incremental changed-file branch, the backend
`deleteLoader` on the superseded record's handle is the *first* awaited
call, strictly before the `updateFileMetadata` write of the new-hash
record; likewise the metadata-store variant's update branch deletes the old
loader (and its record) before upserting the replacement.  The full-refresh
path writes replacement records without any `deleteLoader` on the
superseded handles (counterexample). -/
theorem C7_delete_old_before_record_write (env : Env)
    (emap : String → Option FileMetadata) (f : FileInput) (m : FileMetadata)
    (acc : IncAcc) (h : String) (hm : emap f.path = some m)
    (hh : env.hashOf f.path = .ok h)
    (hc : m.hash ≠ h ∨ m.lastModified ≠ env.mtimeOf f.path)
    (baseId : String) (store2 : List DocumentMetadata) (file2 : FileInput)
    (m2 : DocumentMetadata) (h2 : String)
    (hm2 : getMetadataByPath baseId store2 file2.path = some m2)
    (hh2 : env.hashOf file2.path = .ok h2) (hne : m2.content_hash ≠ h2)
    (hv : validLoaderResult (env.addLoader file2.path false) = true) :
    (∃ acc', processFiles env emap [f] acc = .ok acc' ∧
      acc'.events = acc.events ++
        [.deleteLoader m.embedjs_unique_id, .addLoader f.path true,
         .updateMeta f.path h (env.mtimeOf f.path) f.size
           (env.addLoader f.path true).uniqueId]) ∧
    (fileTaskMetadataStoreVariant env baseId store2 file2 false).1 =
      [.deleteLoader m2.unique_id_embedjs, .deleteMetaByUid m2.unique_id_embedjs,
       .addLoader file2.path false,
       .upsertMeta ⟨baseId, file2.path, h2, (env.addLoader file2.path false).uniqueId,
         (env.addLoader file2.path false).loaderType, file2.lastModified⟩] := by
  constructor
  · have hstep : processFiles env emap [f] acc = .ok
        { store := updateFileMetadata acc.store f.path h (env.mtimeOf f.path) f.size
            (env.addLoader f.path true).uniqueId,
          events := acc.events ++
            [.deleteLoader m.embedjs_unique_id, .addLoader f.path true,
             .updateMeta f.path h (env.mtimeOf f.path) f.size
               (env.addLoader f.path true).uniqueId],
          processedFilePaths := acc.processedFilePaths ++ [f.path],
          entriesAdded := acc.entriesAdded + 1,
          uniqueIds := acc.uniqueIds ++ [(env.addLoader f.path true).uniqueId] } := by
      simp only [processFiles]
      rw [hh]
      simp only []
      rw [hm]
      simp only []
      rw [if_pos hc]
    exact ⟨_, hstep, rfl⟩
  · unfold fileTaskMetadataStoreVariant
    rw [hh2]
    simp only []
    rw [hm2]
    simp only []
    rw [if_neg (fun hcontra => hne hcontra.2)]
    rw [if_pos hv]
    rfl

/-- Witness for `C7_delete_old_before_record_write` on the `/d/a.txt`
scenarios. -/
theorem C7_delete_old_before_record_write_witness :
    (∃ acc', processFiles envEdit (fun _ => some recOld) [⟨"/d/a.txt", 10, 6⟩]
        ⟨[recOld], [], [], 0, []⟩ = .ok acc' ∧
      acc'.events = ([] : List Event) ++
        [.deleteLoader recOld.embedjs_unique_id,
         .addLoader (⟨"/d/a.txt", 10, 6⟩ : FileInput).path true,
         .updateMeta (⟨"/d/a.txt", 10, 6⟩ : FileInput).path "h2"
           (envEdit.mtimeOf (⟨"/d/a.txt", 10, 6⟩ : FileInput).path)
           (⟨"/d/a.txt", 10, 6⟩ : FileInput).size
           (envEdit.addLoader (⟨"/d/a.txt", 10, 6⟩ : FileInput).path true).uniqueId]) ∧
    (fileTaskMetadataStoreVariant envEdit "kb1" [recDoc2] ⟨"/d/a.txt", 10, 5⟩
        false).1 =
      [.deleteLoader recDoc2.unique_id_embedjs,
       .deleteMetaByUid recDoc2.unique_id_embedjs,
       .addLoader (⟨"/d/a.txt", 10, 5⟩ : FileInput).path false,
       .upsertMeta ⟨"kb1", (⟨"/d/a.txt", 10, 5⟩ : FileInput).path, "h2",
         (envEdit.addLoader (⟨"/d/a.txt", 10, 5⟩ : FileInput).path false).uniqueId,
         (envEdit.addLoader (⟨"/d/a.txt", 10, 5⟩ : FileInput).path false).loaderType,
         (⟨"/d/a.txt", 10, 5⟩ : FileInput).lastModified⟩] :=
  C7_delete_old_before_record_write envEdit (fun _ => some recOld)
    ⟨"/d/a.txt", 10, 6⟩ recOld ⟨[recOld], [], [], 0, []⟩ "h2" rfl rfl
    (Or.inl (by decide)) "kb1" [recDoc2] ⟨"/d/a.txt", 10, 5⟩ recDoc2 "h2"
    (by decide) rfl (by decide) (by decide)

/-- C8 (the claim is right, the code is wrong): the incremental master
task's async body (lines 1268-1326) has *no* failure boundary — unlike
every other task item, whose bodies end in `.catch` resolving
`ERROR_LOADER_RETURN`.  When `calculateFileHash` fails for a file of the
directory, the task's promise rejects instead of resolving with the error
sentinel, so the scheduler's completion handler (lines 1539-1547: counter
decrements, item removal, refill scan, group resolution) never runs for the
item. -/
theorem C8_incremental_task_rejects :
    incrementalMasterTask envHashFail [] "/d" [⟨"/d/a.txt", 3, 0⟩] =
      .rejected [] [] "EACCES: permission denied" ∧
    (incrementalMasterTask envHashFail [] "/d" [⟨"/d/a.txt", 3, 0⟩]).isRejected =
      true ∧
    (TaskOutcome.rejected [] [] "EACCES: permission denied").isRejected = true :=
  ⟨by decide, by decide, by decide⟩

/-! ## Claim C9 -/

theorem strToList_append (a b : String) : (a ++ b).toList = a.toList ++ b.toList := by
  cases a
  cases b
  rfl

theorem likeMatchL_percent (s : List Char) : likeMatchL ['%'] s = true := by
  have h1 : likeMatchL ['%'] s = s.tails.any (fun t => likeMatchL [] t) := by
    simp [likeMatchL]
  rw [h1, List.any_eq_true]
  refine ⟨[], ?_, by decide⟩
  rw [List.mem_tails]
  exact List.nil_suffix

theorem likeMatchL_no_wildcards :
    ∀ (pat s : List Char), (∀ c ∈ pat, c ≠ '%' ∧ c ≠ '_') →
      likeMatchL (pat ++ ['%']) s =
        (pat.map asciiLower).isPrefixOf (s.map asciiLower) := by
  intro pat
  induction pat with
  | nil =>
    intro s _
    simp only [List.nil_append, List.map_nil]
    rw [likeMatchL_percent s]
    cases s <;> rfl
  | cons c pat ih =>
    intro s hw
    have hc1 : c ≠ '%' := (hw c (List.mem_cons_self _ _)).1
    have hc2 : c ≠ '_' := (hw c (List.mem_cons_self _ _)).2
    have hwrest : ∀ x ∈ pat, x ≠ '%' ∧ x ≠ '_' :=
      fun x hx => hw x (List.mem_cons_of_mem c hx)
    cases s with
    | nil =>
      simp only [List.cons_append, likeMatchL, if_neg hc1, if_neg hc2,
        List.map_cons, List.map_nil]
      rfl
    | cons d s' =>
      simp only [List.cons_append, likeMatchL, if_neg hc1, if_neg hc2,
        List.map_cons, List.append_eq]
      rw [ih s' hwrest]
      show (decide (asciiLower c = asciiLower d) &&
          (pat.map asciiLower).isPrefixOf (s'.map asciiLower)) =
        ((asciiLower c :: pat.map asciiLower).isPrefixOf
          (asciiLower d :: s'.map asciiLower))
      by_cases hcd : asciiLower c = asciiLower d
      · simp [List.isPrefixOf, hcd]
      · simp [List.isPrefixOf, hcd]

/-- C9, counterexample.  SQL `LIKE` treats an underscore in the pattern as
a single-character wildcard, so querying the directory `/a_b` returns the
record `/axb/f.txt`, whose path does not begin with `/a_b/` — neither
literally nor up to ASCII case. -/
theorem C9_counterexample :
    getDirectoryMetadata [recSneaky] "/a_b" = [recSneaky] ∧
      literalStartsWith "/a_b/" recSneaky.filePath = false ∧
      ciStartsWith "/a_b/" recSneaky.filePath = false :=
  ⟨by decide, by decide, by decide⟩

/-- C9 (amended): for a directory path free of the SQL `LIKE` wildcards
`%` and `_`, the metadata query returns exactly the stored records whose
`filePath` begins — ASCII-case-insensitively, `LIKE`'s default collation —
with the directory path suffixed by the separator; in particular `/a/b`
never returns records under the sibling `/a/bc` (see the witness).  For
directory paths containing `%` or `_`, records under similarly named
directories can also be returned (counterexample). -/
theorem C9_directory_query (store : List FileMetadata) (dir : String)
    (hw : ∀ c ∈ dir.toList, c ≠ '%' ∧ c ≠ '_') (r : FileMetadata) :
    r ∈ getDirectoryMetadata store dir ↔
      r ∈ store ∧ ciStartsWith (normalizeDirPath dir) r.filePath = true := by
  have hwn : ∀ c ∈ (normalizeDirPath dir).toList, c ≠ '%' ∧ c ≠ '_' := by
    intro c hc
    unfold normalizeDirPath at hc
    by_cases he : strEndsWith dir "/" = true
    · rw [if_pos he] at hc
      exact hw c hc
    · rw [if_neg he, strToList_append] at hc
      rcases List.mem_append.mp hc with hc | hc
      · exact hw c hc
      · have : c = '/' := by simpa using hc
        subst this
        exact ⟨by decide, by decide⟩
  have hkey : likeMatch (normalizeDirPath dir ++ "%") r.filePath =
      ciStartsWith (normalizeDirPath dir) r.filePath := by
    unfold likeMatch ciStartsWith
    rw [strToList_append]
    rw [show ("%" : String).toList = ['%'] from rfl]
    exact likeMatchL_no_wildcards _ _ hwn
  unfold getDirectoryMetadata
  rw [List.mem_filter, hkey]

/-- Witness for `C9_directory_query`: querying `/a/b` returns the record
under `/a/b/` and not the record under the sibling `/a/bc/`. -/
theorem C9_directory_query_witness :
    recAB ∈ getDirectoryMetadata [recAB, recABC] "/a/b" ∧
      recABC ∉ getDirectoryMetadata [recAB, recABC] "/a/b" := by
  constructor
  · exact (C9_directory_query [recAB, recABC] "/a/b" (by decide) recAB).mpr
      ⟨by simp, by decide⟩
  · intro hmem
    have := ((C9_directory_query [recAB, recABC] "/a/b" (by decide) recABC).mp
      hmem).2
    revert this
    decide

end CherryKS
